import Mathlib

/-!
Scrawler: robots policy, per-host rate limit, URL canonicalisation, content fingerprint
and the sequential crawl loop.

A shallow embedding of `scraper/fetch/fetch.go` and `scraper/crawl/crawl.go`.

Go strings are byte sequences, so a string is a list of bytes (naturals below 256) and
`len` is the length of that list.  The functions of Go's `strings` and `net/url` packages
that the code calls are embedded next to the code that calls them.
-/

namespace Scrawler

/-! ## Strings -/

/-- A Go string: the sequence of its bytes. -/
abbrev Str := List Nat

/-- The bytes of an ASCII literal. -/
def lit (s : String) : Str := s.data.map Char.toNat

/-- Go `strings.HasPrefix(s, pre)`. -/
def HasPrefix (s pre : Str) : Bool := pre.isPrefixOf s

/-- Go `strings.TrimRight(s, cutset)` for a cutset of one ASCII byte `c`: every trailing
`c` is removed. -/
def TrimRightByte (s : Str) (c : Nat) : Str :=
  (s.reverse.dropWhile (fun b => b == c)).reverse

/-- The UTF-8 encodings of the runes for which Go's `unicode.IsSpace` holds: tab, line
feed, vertical tab, form feed, carriage return, space, U+0085, U+00A0, U+1680,
U+2000 to U+200A, U+2028, U+2029, U+202F, U+205F and U+3000. -/
def spaceRunes : List Str :=
  [[9], [10], [11], [12], [13], [32], [0xC2, 0x85], [0xC2, 0xA0], [0xE1, 0x9A, 0x80],
   [0xE2, 0x80, 0x80], [0xE2, 0x80, 0x81], [0xE2, 0x80, 0x82], [0xE2, 0x80, 0x83],
   [0xE2, 0x80, 0x84], [0xE2, 0x80, 0x85], [0xE2, 0x80, 0x86], [0xE2, 0x80, 0x87],
   [0xE2, 0x80, 0x88], [0xE2, 0x80, 0x89], [0xE2, 0x80, 0x8A], [0xE2, 0x80, 0xA8],
   [0xE2, 0x80, 0xA9], [0xE2, 0x80, 0xAF], [0xE2, 0x81, 0x9F], [0xE3, 0x80, 0x80]]

/-- Removes one white-space rune from the front of `s`, if `s` starts with one. -/
def dropSpaceFront (s : Str) : Option Str :=
  (spaceRunes.find? (fun e => e.isPrefixOf s)).map (fun e => s.drop e.length)

/-- Removes one white-space rune from the end of `s`, if `s` ends with one. -/
def dropSpaceBack (s : Str) : Option Str :=
  (spaceRunes.find? (fun e => e.isSuffixOf s)).map (fun e => s.take (s.length - e.length))

/-- Removes leading white-space runes; the first argument bounds the number of rounds. -/
def trimFront : Nat → Str → Str
  | 0, s => s
  | n + 1, s =>
    match dropSpaceFront s with
    | some r => trimFront n r
    | none => s

/-- Removes trailing white-space runes; the first argument bounds the number of rounds. -/
def trimBack : Nat → Str → Str
  | 0, s => s
  | n + 1, s =>
    match dropSpaceBack s with
    | some r => trimBack n r
    | none => s

/-- Go `strings.TrimSpace(s)`: leading and trailing white-space runes removed. -/
def TrimSpace (s : Str) : Str :=
  let a := trimFront s.length s
  trimBack a.length a

/-- Lower-cases one ASCII byte. -/
def asciiLower (c : Nat) : Nat := if 65 ≤ c ∧ c ≤ 90 then c + 32 else c

/-- Go `strings.ToLower(s)`.  A string of ASCII bytes is lower-cased byte by byte; for any
other string Go maps `unicode.ToLower` over the runes, which needs the Unicode case
tables: that mapping is the parameter `unicodeLower`. -/
def ToLower (unicodeLower : Str → Str) (s : Str) : Str :=
  if s.all (fun c => decide (c < 128)) then s.map asciiLower else unicodeLower s

/-- Go `strings.Split(s, sep)` for a separator of one byte `sep`. -/
def SplitByte (sep : Nat) : Str → List Str
  | [] => [[]]
  | c :: cs =>
    if c = sep then [] :: SplitByte sep cs
    else
      match SplitByte sep cs with
      | [] => [[c]]
      | l :: ls => (c :: l) :: ls

/-- Go `strings.SplitN(s, sep, 2)` for a separator of one byte `sep`: `none` when the
result has one part (no separator in `s`), otherwise the text before and after the first
separator. -/
def SplitN2 (sep : Nat) : Str → Option (Str × Str)
  | [] => none
  | c :: cs =>
    if c = sep then some ([], cs)
    else (SplitN2 sep cs).map (fun p => (c :: p.1, p.2))

/-! ## Robots policy (`scraper/fetch/fetch.go`) -/

/-- One rule of a robots policy. -/
structure robotRule where
  allow : Bool
  path : Str
deriving DecidableEq, Repr

/-- A robots policy: the Go map `uaRules` from lower-cased user-agent to its rules
(`none`: the key is absent). -/
structure robotsTxt where
  uaRules : Str → Option (List robotRule)

/-- The group name `*`. -/
def star : Str := lit "*"

/-- The policy `fetchRobots` and the tests start from: `{"*": {}}`. -/
def freshRobots : robotsTxt := ⟨fun k => if k = star then some [] else none⟩

/-- Go map read `rob.uaRules[ua]`: the nil slice when the key is absent. -/
def getRules (rob : robotsTxt) (ua : Str) : List robotRule := (rob.uaRules ua).getD []

/-- Go map write `rob.uaRules[ua] = rules`. -/
def setRules (rob : robotsTxt) (ua : Str) (rules : List robotRule) : robotsTxt :=
  ⟨fun k => if k = ua then some rules else rob.uaRules k⟩

/-- The statement `rob.uaRules[ua] = append(rob.uaRules[ua], rule)`. -/
def appendRule (rob : robotsTxt) (ua : Str) (rule : robotRule) : robotsTxt :=
  setRules rob ua (getRules rob ua ++ [rule])

/-- The loop state of `parseRobots`: the local `currentUA` and the policy being filled. -/
structure parseState where
  currentUA : List Str
  rob : robotsTxt

/-- The `allow` and `disallow` cases of `parseRobots`: the rule is appended to the group
of every member of `currentUA`, then to the group `*`. -/
def addRule (st : parseState) (rule : robotRule) : parseState :=
  let rob1 := st.currentUA.foldl (fun r ua => appendRule r ua rule) st.rob
  ⟨st.currentUA, appendRule rob1 star rule⟩

/-- The body of the loop over lines in `parseRobots`. -/
def parseLine (unicodeLower : Str → Str) (st : parseState) (line : Str) : parseState :=
  let l := TrimSpace line
  if l = [] ∨ HasPrefix l (lit "#") = true then st
  else
    match SplitN2 58 l with
    | none => st
    | some (k, v) =>
      let key := ToLower unicodeLower (TrimSpace k)
      let val := TrimSpace v
      if key = lit "user-agent" then
        let ua := ToLower unicodeLower val
        ⟨[ua], if (st.rob.uaRules ua).isSome then st.rob else setRules st.rob ua []⟩
      else if key = lit "allow" then addRule st ⟨true, val⟩
      else if key = lit "disallow" then addRule st ⟨false, val⟩
      else st

/-- Go `parseRobots(text, rob)`: the policy `rob` after the call. -/
def parseRobots (unicodeLower : Str → Str) (text : Str) (rob : robotsTxt) : robotsTxt :=
  ((SplitByte 10 text).foldl (parseLine unicodeLower) ⟨[], rob⟩).rob

/-- The body of the loop in the closure `check` of `isAllowed`, on the captured variables
`(best, allowed)`. -/
def checkRule (path : Str) (st : Nat × Bool) (rule : robotRule) : Nat × Bool :=
  let p := rule.path
  if p = [] then st
  else if path = p ∨ HasPrefix path (TrimRightByte p 47 ++ lit "/") = true then
    let plen := p.length
    if plen > st.1 then (plen, rule.allow)
    else if plen = st.1 ∧ st.2 = true ∧ rule.allow = false then (st.1, false)
    else st
  else st

/-- The closure `check` of `isAllowed`. -/
def check (path : Str) (st : Nat × Bool) (rules : List robotRule) : Nat × Bool :=
  rules.foldl (checkRule path) st

/-- Go `(r *robotsTxt).isAllowed(userAgent, path)`. -/
def isAllowed (r : robotsTxt) (userAgent path : Str) : Bool :=
  let st0 : Nat × Bool := (0, true)
  let st1 :=
    match r.uaRules userAgent with
    | some rules => check path st0 rules
    | none => st0
  (check path st1 (getRules r star)).2

/-- The rule path `P` matches the request path `p`, in the words of the specification:
`P` is not empty and `p == P` or `p` starts with `rtrim(P, "/") + "/"`. -/
def Matches (P p : Str) : Prop :=
  P ≠ [] ∧ (p = P ∨ (TrimRightByte P 47 ++ lit "/") <+: p)

instance (P p : Str) : Decidable (Matches P p) := by
  unfold Matches
  infer_instance

/-- The loop invariant of `check`: `st` summarises the rules `seen` so far. -/
def Summary (path : Str) (seen : List robotRule) (st : Nat × Bool) : Prop :=
  (∀ r ∈ seen, Matches r.path path → r.path.length ≤ st.1) ∧
  (st.1 = 0 ∨ ∃ r ∈ seen, Matches r.path path ∧ r.path.length = st.1) ∧
  (st.2 = false ↔ ∃ r ∈ seen, Matches r.path path ∧ r.path.length = st.1 ∧ r.allow = false)

/-- The rules `isAllowed` looks at: those of the queried group, then those of `*`. -/
def consulted (r : robotsTxt) (userAgent : Str) : List robotRule :=
  (r.uaRules userAgent).getD [] ++ getRules r star

/-- The text of `TestAllowOverridesDisallow_BoundaryAware`. -/
def jobsText : Str := lit "User-agent: *\nDisallow: /jobs\nAllow: /jobs/api\n"

/-- The text of `TestBoundaryMatching_DisallowJobs`. -/
def jobsOnlyText : Str := lit "User-agent: *\nDisallow: /jobs\n"

/-- What one line of a robots.txt declares. -/
inductive Directive where
  | agent (ua : Str)
  | rule (r : robotRule)
deriving DecidableEq

/-- The reading of one line in the words of the specification: blank lines and lines
starting with `#` are ignored; the line is split at its first `:` into key and value; the
key is compared case-insensitively with `user-agent`, `allow` and `disallow`; the value is
the trimmed text after the colon (lower-cased for `user-agent`). -/
def directive (unicodeLower : Str → Str) (line : Str) : Option Directive :=
  let l := TrimSpace line
  if l = [] ∨ HasPrefix l (lit "#") = true then none
  else
    match SplitN2 58 l with
    | none => none
    | some (k, v) =>
      let key := ToLower unicodeLower (TrimSpace k)
      if key = lit "user-agent" then some (Directive.agent (ToLower unicodeLower (TrimSpace v)))
      else if key = lit "allow" then some (Directive.rule ⟨true, TrimSpace v⟩)
      else if key = lit "disallow" then some (Directive.rule ⟨false, TrimSpace v⟩)
      else none

/-- The user-agent a `user-agent` line names. -/
def agentOf (unicodeLower : Str → Str) (line : Str) : Option Str :=
  match directive unicodeLower line with
  | some (Directive.agent ua) => some ua
  | _ => none

/-- The rule an `allow` or `disallow` line declares. -/
def ruleOf (unicodeLower : Str → Str) (line : Str) : Option robotRule :=
  match directive unicodeLower line with
  | some (Directive.rule r) => some r
  | _ => none

/-- The user-agent named by the nearest `user-agent` line among the lines `before`. -/
def nearestAgent (unicodeLower : Str → Str) (before : List Str) : Option Str :=
  (before.reverse.filterMap (agentOf unicodeLower)).head?

/-- The rules of the lines whose nearest preceding `user-agent` line names `g`, in the
order of the text. -/
def declaredFor (unicodeLower : Str → Str) (lines : List Str) (g : Str) : List robotRule :=
  (List.range lines.length).filterMap (fun i =>
    if nearestAgent unicodeLower (lines.take i) = some g then
      ruleOf unicodeLower (lines.getD i [])
    else none)

/-- The invariant of the loop of `parseRobots` after the lines `pre`. -/
def ParseInv (unicodeLower : Str → Str) (pre : List Str) (st : parseState) : Prop :=
  st.currentUA = (nearestAgent unicodeLower pre).toList ∧
  (∀ g, g ≠ star → getRules st.rob g = declaredFor unicodeLower pre g) ∧
  (∀ g, g ≠ star →
    ((st.rob.uaRules g).isSome = true ↔ ∃ l ∈ pre, agentOf unicodeLower l = some g)) ∧
  (∀ rule, rule ∈ getRules st.rob star ↔ ∃ l ∈ pre, ruleOf unicodeLower l = some rule)

/-- A robots.txt with two named groups and one rule before any group. -/
def twoGroupsText : Str :=
  lit "Disallow: /tmp\nUser-agent: Googlebot\nDisallow: /a\nUser-agent: bingbot\nAllow: /b\n"

/-! ## URLs (`net/url`) and `canonicalURL` (`scraper/crawl/crawl.go`) -/

/-- Go `url.Userinfo`. -/
structure Userinfo where
  username : Str
  password : Str
  passwordSet : Bool
deriving DecidableEq

/-- Go `url.URL`. -/
structure URL where
  Scheme : Str := []
  Opaque : Str := []
  User : Option Userinfo := none
  Host : Str := []
  Path : Str := []
  RawPath : Str := []
  OmitHost : Bool := false
  ForceQuery : Bool := false
  RawQuery : Str := []
  Fragment : Str := []
  RawFragment : Str := []
deriving DecidableEq

/-- The escaping modes of `net/url`. -/
inductive encoding where
  | encodePath
  | encodePathSegment
  | encodeHost
  | encodeZone
  | encodeUserPassword
  | encodeQueryComponent
  | encodeFragment
deriving DecidableEq

/-- Go `validOptionalPort(port)`: empty, or a colon followed by decimal digits. -/
def validOptionalPort : Str → Bool
  | [] => true
  | c :: rest => c == 58 && rest.all (fun b => decide (48 ≤ b ∧ b ≤ 57))

/-- Go `strings.LastIndexByte(s, c)`: the index of the last `c` in `s`. -/
def LastIndexByte (s : Str) (c : Nat) : Option Nat :=
  match s.reverse.indexOf? c with
  | some i => some (s.length - 1 - i)
  | none => none

/-- Go `strings.HasSuffix(s, suf)`. -/
def HasSuffix (s suf : Str) : Bool := suf.isSuffixOf s

/-- Go `splitHostPort(hostPort)`: the host without brackets, and the port. -/
def splitHostPort (hostPort : Str) : Str × Str :=
  let hp : Str × Str :=
    match LastIndexByte hostPort 58 with
    | some colon =>
      if validOptionalPort (hostPort.drop colon) then
        (hostPort.take colon, hostPort.drop (colon + 1))
      else (hostPort, [])
    | none => (hostPort, [])
  if HasPrefix hp.1 (lit "[") && HasSuffix hp.1 (lit "]") then
    ((hp.1.drop 1).take (hp.1.length - 2), hp.2)
  else hp

/-- Go `(u *URL).Hostname()`. -/
def URL.Hostname (u : URL) : Str := (splitHostPort u.Host).1

/-- Go `(u *URL).Port()`. -/
def URL.Port (u : URL) : Str := (splitHostPort u.Host).2

/-- Go `shouldEscape(c, mode)`. -/
def shouldEscape (c : Nat) (mode : encoding) : Bool :=
  if (97 ≤ c ∧ c ≤ 122) ∨ (65 ≤ c ∧ c ≤ 90) ∨ (48 ≤ c ∧ c ≤ 57) then false
  else if (mode = encoding.encodeHost ∨ mode = encoding.encodeZone) ∧
      c ∈ lit "!$&'()*+,;=:[]<>\"" then false
  else if c ∈ lit "-_.~" then false
  else if c ∈ lit "$&+,/:;=?@" then
    match mode with
    | encoding.encodePath => c == 63
    | encoding.encodePathSegment => c == 47 || c == 59 || c == 44 || c == 63
    | encoding.encodeUserPassword => c == 64 || c == 47 || c == 63 || c == 58
    | encoding.encodeQueryComponent => true
    | encoding.encodeFragment => false
    | _ => true
  else if mode = encoding.encodeFragment ∧ c ∈ lit "!()*" then false
  else true

/-- The digit `upperhex[n]` of Go, for `n < 16`. -/
def upperhex (n : Nat) : Nat := if n < 10 then 48 + n else 55 + n

/-- Go `escape(s, mode)`. -/
def escape (s : Str) (mode : encoding) : Str :=
  s.flatMap (fun c =>
    if shouldEscape c mode then
      if c = 32 ∧ mode = encoding.encodeQueryComponent then [43]
      else [37, upperhex (c / 16), upperhex (c % 16)]
    else [c])

/-- Go `ishex(c)`. -/
def ishex (c : Nat) : Bool :=
  (48 ≤ c && c ≤ 57) || (97 ≤ c && c ≤ 102) || (65 ≤ c && c ≤ 70)

/-- Go `unhex(c)`. -/
def unhex (c : Nat) : Nat :=
  if 48 ≤ c ∧ c ≤ 57 then c - 48
  else if 97 ≤ c ∧ c ≤ 102 then c - 97 + 10
  else if 65 ≤ c ∧ c ≤ 70 then c - 65 + 10
  else 0

/-- Go `unescape(s, mode)`; `none` is the error result. -/
def unescape (mode : encoding) : Str → Option Str
  | [] => some []
  | c :: rest =>
    if c = 37 then
      match rest with
      | a :: b :: rest2 =>
        if ishex a && ishex b then
          if mode = encoding.encodeHost ∧ unhex a < 8 ∧ ¬ (a = 50 ∧ b = 53) then none
          else if mode = encoding.encodeZone ∧ ¬ (a = 50 ∧ b = 53) ∧
              unhex a * 16 + unhex b ≠ 32 ∧
              shouldEscape (unhex a * 16 + unhex b) encoding.encodeHost = true then none
          else (unescape mode rest2).map (fun t => (unhex a * 16 + unhex b) :: t)
        else none
      | _ => none
    else if c = 43 then
      (unescape mode rest).map (fun t =>
        (if mode = encoding.encodeQueryComponent then 32 else 43) :: t)
    else if (mode = encoding.encodeHost ∨ mode = encoding.encodeZone) ∧ c < 128 ∧
        shouldEscape c encoding.encodeHost = true then none
    else (unescape mode rest).map (fun t => c :: t)

/-- Go `validEncoded(s, mode)`. -/
def validEncoded (s : Str) (mode : encoding) : Bool :=
  s.all (fun c =>
    if c ∈ lit "!$&'()*+,;=:@" then true
    else if c = 91 ∨ c = 93 then true
    else if c = 37 then true
    else !shouldEscape c mode)

/-- Go `(u *URL).EscapedPath()`. -/
def URL.EscapedPath (u : URL) : Str :=
  if u.RawPath ≠ [] ∧ validEncoded u.RawPath encoding.encodePath = true ∧
      unescape encoding.encodePath u.RawPath = some u.Path then u.RawPath
  else if u.Path = lit "*" then lit "*"
  else escape u.Path encoding.encodePath

/-- Go `(u *URL).EscapedFragment()`. -/
def URL.EscapedFragment (u : URL) : Str :=
  if u.RawFragment ≠ [] ∧ validEncoded u.RawFragment encoding.encodeFragment = true ∧
      unescape encoding.encodeFragment u.RawFragment = some u.Fragment then u.RawFragment
  else escape u.Fragment encoding.encodeFragment

/-- Go `(u *Userinfo).String()`. -/
def Userinfo.String (ui : Userinfo) : Str :=
  escape ui.username encoding.encodeUserPassword ++
    (if ui.passwordSet then lit ":" ++ escape ui.password encoding.encodeUserPassword
     else [])

/-- Go `strings.Cut(s, "/")`, first component: the text before the first `/`. -/
def firstSegment (s : Str) : Str := s.takeWhile (fun c => c != 47)

/-- Go `(u *URL).String()`.  The parts are appended to the buffer in the order of the
Go code: scheme, opaque or authority and path, query, fragment.  When the host is omitted
(`OmitHost` set, no host, no user) and the escaped path starts with `//`, the first slash
of the path is written as `%2F`, so that the path is not read as an authority. -/
def URL.String (u : URL) : Str :=
  let b1 : Str := if u.Scheme ≠ [] then u.Scheme ++ lit ":" else []
  let b2 : Str :=
    if u.Opaque ≠ [] then b1 ++ u.Opaque
    else
      let b3 : Str :=
        if u.Scheme ≠ [] ∨ u.Host ≠ [] ∨ u.User.isSome = true then
          if u.OmitHost = true ∧ u.Host = [] ∧ u.User.isSome = false then b1
          else
            let b4 := if u.Host ≠ [] ∨ u.Path ≠ [] ∨ u.User.isSome = true
              then b1 ++ lit "//" else b1
            let b5 := match u.User with
              | some ui => b4 ++ ui.String ++ lit "@"
              | none => b4
            if u.Host ≠ [] then b5 ++ escape u.Host encoding.encodeHost else b5
        else b1
      let path := u.EscapedPath
      let b6 : Str :=
        if path ≠ [] ∧ path.head? ≠ some 47 ∧ u.Host ≠ [] then b3 ++ lit "/" else b3
      let b7 : Str :=
        if b6 = [] ∧ 58 ∈ firstSegment path then b6 ++ lit "./" else b6
      if u.OmitHost = true ∧ u.Host = [] ∧ u.User.isSome = false ∧
          HasPrefix path (lit "//") = true then
        b7 ++ lit "%2F" ++ path.drop 1
      else b7 ++ path
  let b8 : Str :=
    if u.ForceQuery = true ∨ u.RawQuery ≠ [] then b2 ++ lit "?" ++ u.RawQuery else b2
  if u.Fragment ≠ [] then b8 ++ lit "#" ++ u.EscapedFragment else b8

/-- The local `clone` of `canonicalURL` just before `clone.String()`. -/
def canonicalClone (u : URL) : URL :=
  let clone : URL := { u with Fragment := [] }
  let clone : URL :=
    if (clone.Scheme = lit "http" ∧ clone.Port = lit "80") ∨
        (clone.Scheme = lit "https" ∧ clone.Port = lit "443") then
      { clone with Host := clone.Hostname }
    else clone
  if clone.Path = [] then { clone with Path := lit "/" } else clone

/-- Go `canonicalURL(u)`. -/
def canonicalURL (u : URL) : Str := (canonicalClone u).String

/-! ## Content fingerprint (`seenContent`, `scraper/crawl/crawl.go`) -/

/-- The hash `h` that `seenContent(b)` computes, on `uint64` arithmetic: start from the
constant of the code, and for each byte XOR it in and multiply by `prime64`. -/
def contentHash (b : List Nat) : Nat :=
  b.foldl (fun h c => ((h ^^^ c) * 1099511628211) % 2 ^ 64) 1469598103934665603

/-- Go `seenContent(b)` on the global `seenHashes` (the set of hashes seen so far): the
result and the set after the call. -/
def seenContent (seenHashes : List Nat) (b : List Nat) : Bool × List Nat :=
  let h := contentHash b
  if h ∈ seenHashes then (true, seenHashes) else (false, h :: seenHashes)

/-- The 64-bit FNV-1a hash in the words of the specification: offset basis
`0xcbf29ce484222325`, and for each byte in order XOR the byte into the hash and multiply by
the prime `0x100000001b3` modulo `2^64`. -/
def fnv1a64 (b : List Nat) : Nat :=
  b.foldl (fun h c => ((h ^^^ c) * 0x100000001b3) % 2 ^ 64) 0xcbf29ce484222325

/-! ## The sequential crawl (`Crawl`, `scraper/crawl/crawl.go`) -/

/-- Go `crawl.Options`. -/
structure Options where
  StartURL : Str := []
  UserAgent : Str := []
  TimeoutSecs : Int := 0
  MaxDepth : Int := 0
  MaxPages : Int := 0
  SameHostOnly : Bool := false
  OutDir : Str := []
  Concurrency : Int := 0
  SaveExtract : Bool := false
  ExtractSaveFormat : Str := []

/-- What `fetch.FetchDocument` returns: `err` (true: a non-nil error), the raw bytes, the
content type, and of the parsed document the `href` attribute values of its `a[href]`
elements in document order (all that `extractLinks` reads of it). -/
structure FetchResult where
  err : Bool
  hrefs : List Str
  body : List Nat
  ctype : Str
deriving DecidableEq

/-- The collaborators of `Crawl` outside the embedded code.  `FetchDocument` and `saveHTML`
act on the network and the file system, so their results may depend on what happened
before: their first argument is the list of the target URLs dispatched earlier in the run.
`resolve base href` is `base.Parse(href)` of `net/url` (`none`: an error), `equalFold` is
`strings.EqualFold` and `unicodeLower` the Unicode part of `strings.ToLower`. -/
structure World where
  FetchDocument : List Str → Str → Str → FetchResult
  saveHTML : List Str → Str → URL → List Nat → Bool
  resolve : URL → Str → Option URL
  equalFold : Str → Str → Bool
  unicodeLower : Str → Str

/-- Go `strings.Contains(s, sub)`. -/
def Contains (s sub : Str) : Bool := decide (sub <:+: s)

/-- Go `sameHost(a, b)`. -/
def sameHost (w : World) (a b : URL) : Bool := w.equalFold a.Hostname b.Hostname

/-- Go `extractLinks(doc, base)`: every non-empty `href` that `base.Parse` accepts, with
its fragment cleared. -/
def extractLinks (w : World) (hrefs : List Str) (base : URL) : List URL :=
  hrefs.filterMap (fun href =>
    if href = [] then none
    else
      match w.resolve base href with
      | none => none
      | some u => some { u with Fragment := [] })

/-- The queue item `qi` of `Crawl`. -/
structure qi where
  u : URL
  depth : Int
deriving DecidableEq

/-- The state of the loop of `Crawl`: the locals `queue`, `visited` (the keys set to true)
and `pages`, the global `seenHashes`, whether the loop was left by `break`, and the log of
the items for which `FetchDocument` was called, oldest first. -/
structure CrawlState where
  queue : List qi
  visited : List Str
  pages : Int
  seenHashes : List Nat
  halted : Bool
  fetched : List qi

/-- The state before the first iteration: the seed at depth 0, nothing visited, no page. -/
def crawlInit (start : URL) (seenHashes : List Nat) : CrawlState :=
  { queue := [⟨start, 0⟩], visited := [], pages := 0, seenHashes := seenHashes,
    halted := false, fetched := [] }

/-- The links of a fetched page that `Crawl` appends to the queue: scheme `http` or
`https`, and on the seed's host when `SameHostOnly` is set. -/
def admitted (w : World) (opts : Options) (start : URL) (links : List URL) : List URL :=
  links.filter (fun link =>
    !(decide (link.Scheme ≠ lit "http") && decide (link.Scheme ≠ lit "https")) &&
    !(opts.SameHostOnly && !sameHost w start link))

/-- One iteration of the loop of `Crawl` on a non-empty queue (on an empty queue the loop
is over and the state stays).  The calls to `ExtractSignals` and `SaveExtraction` under
`opts.SaveExtract` only write files and leave the loop state alone. -/
def crawlStep (w : World) (opts : Options) (start : URL) (s : CrawlState) : CrawlState :=
  match s.queue with
  | [] => s
  | item :: rest =>
    let can := canonicalURL item.u
    if can ∈ s.visited then { s with queue := rest }
    else if opts.MaxPages > 0 ∧ s.pages ≥ opts.MaxPages then
      { s with queue := rest, halted := true }
    else
      let earlier := s.fetched.map (fun i => i.u.String)
      let s1 : CrawlState :=
        { s with queue := rest, visited := can :: s.visited, fetched := s.fetched ++ [item] }
      let r := w.FetchDocument earlier item.u.String opts.UserAgent
      if r.err = true ∨ Contains (ToLower w.unicodeLower r.ctype) (lit "text/html") = false then
        s1
      else
        let s2 : CrawlState :=
          if w.saveHTML earlier opts.OutDir item.u r.body = true then
            { s1 with pages := s1.pages + 1 }
          else s1
        let seen := seenContent s2.seenHashes r.body
        let s3 : CrawlState := { s2 with seenHashes := seen.2 }
        if seen.1 = true then s3
        else if item.depth ≥ opts.MaxDepth then s3
        else
          let links := admitted w opts start (extractLinks w r.hrefs item.u)
          { s3 with queue := s3.queue ++ links.map (fun link => ⟨link, item.depth + 1⟩) }

/-- The loop condition of `Crawl`: the queue is not empty and no `break` happened. -/
def running (s : CrawlState) : Bool := !s.halted && !s.queue.isEmpty

/-- The loop of `Crawl`, at most `fuel` iterations. -/
def crawlRun (w : World) (opts : Options) (start : URL) : Nat → CrawlState → CrawlState
  | 0, s => s
  | fuel + 1, s =>
    if running s then crawlRun w opts start fuel (crawlStep w opts start s) else s

/-- Go `Crawl(opts)` after the start URL was parsed to `start`, with `seenHashes` the
global set at the call: the state in which the loop ends, `none` when `fuel` iterations
do not reach the end. -/
def Crawl (w : World) (opts : Options) (start : URL) (seenHashes : List Nat) (fuel : Nat) :
    Option CrawlState :=
  let s := crawlRun w opts start fuel (crawlInit start seenHashes)
  if running s then none else some s

/-- The URL `u` is linked from the seed by a chain of `d` extracted links: each link of the
chain is among the links `extractLinks` returns for the document some call of
`FetchDocument` on the previous URL gives. -/
inductive LinkChain (w : World) (opts : Options) (start : URL) : URL → Int → Prop where
  | seed : LinkChain w opts start start 0
  | link (parent child : URL) (d : Int) (earlier : List Str) :
      LinkChain w opts start parent d →
      child ∈ extractLinks w (w.FetchDocument earlier parent.String opts.UserAgent).hrefs parent →
      LinkChain w opts start child (d + 1)

/-- The dispatch invariant of the loop of `Crawl`: the canonical forms of the dispatched
URLs are pairwise different, and each of them is marked visited. -/
def DispatchInv (s : CrawlState) : Prop :=
  (s.fetched.map (fun i => canonicalURL i.u)).Nodup ∧
  ∀ i ∈ s.fetched, canonicalURL i.u ∈ s.visited

/-- The depth invariant of the loop of `Crawl`: every item on the queue or dispatched has a
depth between 0 and `MaxDepth` and is linked from the seed by a chain of that length. -/
def DepthInv (w : World) (opts : Options) (start : URL) (s : CrawlState) : Prop :=
  ∀ i, i ∈ s.queue ∨ i ∈ s.fetched →
    0 ≤ i.depth ∧ i.depth ≤ opts.MaxDepth ∧ LinkChain w opts start i.u i.depth

/-- The number of canonical URLs of `S` not visited yet. -/
def unvisited (S : List Str) (s : CrawlState) : Nat :=
  (S.filter (fun c => decide (c ∉ s.visited))).length

/-- A small site: every page links to `/a`, to `/b#top` and has one empty `href`; links
resolve to the host `h:80`; the body of a page is its URL; every save succeeds. -/
def demoWorld : World where
  FetchDocument := fun _ target _ =>
    ⟨false, [lit "/a", lit "/b#top", []], target, lit "Text/HTML; charset=utf-8"⟩
  saveHTML := fun _ _ _ _ => true
  resolve := fun _ href =>
    match SplitN2 35 href with
    | some (p, f) => some { Scheme := lit "http", Host := lit "h:80", Path := p, Fragment := f }
    | none => some { Scheme := lit "http", Host := lit "h:80", Path := href }
  equalFold := fun a b => a == b
  unicodeLower := fun s => s

/-- The seed `http://h` of the small site. -/
def demoStart : URL := { Scheme := lit "http", Host := lit "h" }

/-- The canonical URLs of the small site. -/
def demoSite : List Str := [lit "http://h/", lit "http://h/a", lit "http://h/b"]

/-- The page that the next iteration of the loop of `Crawl` fetches successfully as HTML,
with its queue item: `none` when the loop is over, the head of the queue is visited
already, the budget is used up, or `FetchDocument` fails or returns another content
type. -/
def pageAt (w : World) (opts : Options) (s : CrawlState) : Option (qi × FetchResult) :=
  if running s = true then
    match s.queue with
    | [] => none
    | item :: _ =>
      if canonicalURL item.u ∈ s.visited then none
      else if opts.MaxPages > 0 ∧ s.pages ≥ opts.MaxPages then none
      else
        let r := w.FetchDocument (s.fetched.map (fun i => i.u.String)) item.u.String
          opts.UserAgent
        if r.err = true ∨ Contains (ToLower w.unicodeLower r.ctype) (lit "text/html") = false
        then none
        else some (item, r)
  else none

/-- The bodies of the pages fetched successfully as HTML in the first `n` iterations of the
loop of `Crawl` from the state `s`, oldest first. -/
def htmlBodies (w : World) (opts : Options) (start : URL) : Nat → CrawlState → List (List Nat)
  | 0, _ => []
  | n + 1, s =>
    if running s then
      (match pageAt w opts s with
        | some p => [p.2.body]
        | none => []) ++ htmlBodies w opts start n (crawlStep w opts start s)
    else []

/-- The small site with a disk that refuses every write. -/
def demoWorldNoSave : World := { demoWorld with saveHTML := fun _ _ _ _ => false }

/-- A mirror site: the pages of the small site, all with the same bytes. -/
def mirrorWorld : World :=
  { demoWorld with
    FetchDocument := fun _ _ _ =>
      ⟨false, [lit "/a", lit "/b#top", []], lit "<html>", lit "text/html"⟩ }

/-- The mirror site with a disk that refuses every write. -/
def mirrorWorldNoSave : World := { mirrorWorld with saveHTML := fun _ _ _ _ => false }

/-! ## Per-host rate limit (`throttle`, `scraper/fetch/fetch.go`) -/

/-- The global map `hostLast`: for a host the time of its last dispatch, counted in
nanoseconds on the clock of the process; `none` is the zero `time.Time` that a read of an
absent key gives (`time.Now()` never returns the zero time). -/
abbrev HostLast := Str → Option Int

/-- Go `throttle(host)` under the global `minDelay`, on the global map `hostLast`.  `now` is
what `time.Now()` returns at the first reading, `after` what it returns once
`time.Sleep(wait)` is over.  The result is the map after the call and the duration slept
(0: the call did not sleep). -/
def throttle (minDelay : Int) (hostLast : HostLast) (host : Str) (now after : Int) :
    HostLast × Int :=
  if minDelay ≤ 0 then (hostLast, 0)
  else
    match hostLast host with
    | none => (Function.update hostLast host (some now), 0)
    | some last =>
      if now - last ≥ minDelay then (Function.update hostLast host (some now), 0)
      else
        let wait := minDelay - (now - last)
        (Function.update hostLast host (some after), wait)

/-- One call of `throttle` with the two clock readings it may take. -/
structure ThrottleCall where
  host : Str
  now : Int
  after : Int

/-- The map `hostLast` after a sequence of calls of `throttle`, oldest first. -/
def throttleAll (minDelay : Int) (hostLast : HostLast) (calls : List ThrottleCall) :
    HostLast :=
  calls.foldl (fun h c => (throttle minDelay h c.host c.now c.after).1) hostLast

/-- Sleeping advances the clock by at least the duration slept: when the call `c` sleeps
for `wait` in the state `hostLast`, its second reading is at least `wait` after its
first. -/
def SleepAdvances (minDelay : Int) (hostLast : HostLast) (c : ThrottleCall) : Prop :=
  c.now + (throttle minDelay hostLast c.host c.now c.after).2 ≤ c.after

instance (minDelay : Int) (hostLast : HostLast) (c : ThrottleCall) :
    Decidable (SleepAdvances minDelay hostLast c) := by
  unfold SleepAdvances
  infer_instance

/-! ## Closing the frontier (`CrawlConcurrent`, `scraper/crawl/crawl.go`) -/

/-- What one round of the closing goroutine of `CrawlConcurrent` reads: `len(pagesCh)`,
whether the channel `timeout` of `time.After(2 * time.Second)` has a value to receive,
`len(queue)` and `len(activeWorkers)`, and `len(queue)` once more after the grace period
of 100 ms.  A worker puts its token on `activeWorkers` when it starts and takes it off
when its `for j := range queue` is over, that is after `close(queue)`. -/
structure CloserReadings where
  pagesLen : Int
  timeout : Bool
  queueLen : Nat
  activeWorkersLen : Nat
  queueLenAfter : Nat
deriving DecidableEq

/-- One round of the loop of the closing goroutine of `CrawlConcurrent`: `true` when the
round ends in `close(queue); return`, `false` when it ends in `time.Sleep` and the loop
goes on. -/
def closerRound (opts : Options) (rd : CloserReadings) : Bool :=
  if opts.MaxPages > 0 then
    if rd.pagesLen ≥ opts.MaxPages then true else false
  else if rd.timeout = true then true
  else if rd.queueLen = 0 ∧ rd.activeWorkersLen = 0 then
    if rd.queueLenAfter = 0 then true else false
  else false

/-- The closing goroutine of `CrawlConcurrent` on the readings `rd k` of its rounds
`k`, `k + 1`, ...: the round in which it closes the queue, `none` when `fuel` rounds pass
without `close(queue)`. -/
def closer (opts : Options) (rd : Nat → CloserReadings) : Nat → Nat → Option Nat
  | 0, _ => none
  | fuel + 1, k =>
    if closerRound opts (rd k) = true then some k else closer opts rd fuel (k + 1)

/-! ## Theorems -/

theorem hasPrefix_iff (s pre : Str) : HasPrefix s pre = true ↔ pre <+: s := by
  unfold HasPrefix
  exact List.isPrefixOf_iff_prefix

theorem checkRule_eq (path : Str) (st : Nat × Bool) (rule : robotRule) :
    checkRule path st rule =
      if Matches rule.path path then
        if rule.path.length > st.1 then (rule.path.length, rule.allow)
        else if rule.path.length = st.1 ∧ st.2 = true ∧ rule.allow = false then (st.1, false)
        else st
      else st := by
  unfold checkRule Matches
  by_cases hp : rule.path = []
  · simp [hp]
  · simp only [hp, if_false, hasPrefix_iff, ne_eq, not_false_eq_true, true_and]

theorem matches_pos {P p : Str} (h : Matches P p) : 0 < P.length :=
  List.length_pos.mpr h.1

theorem summary_step (path : Str) (seen : List robotRule) (st : Nat × Bool)
    (rule : robotRule) (h : Summary path seen st) :
    Summary path (seen ++ [rule]) (checkRule path st rule) := by
  obtain ⟨hmax, hwit, hver⟩ := h
  rw [checkRule_eq]
  by_cases hm : Matches rule.path path
  · rw [if_pos hm]
    by_cases hgt : rule.path.length > st.1
    · rw [if_pos hgt]
      refine ⟨?_, ?_, ?_⟩
      · intro r hr hrm
        rcases List.mem_append.mp hr with hr | hr
        · exact le_of_lt (lt_of_le_of_lt (hmax r hr hrm) hgt)
        · rw [List.mem_singleton.mp hr]
      · exact Or.inr ⟨rule, by simp, hm, rfl⟩
      · constructor
        · intro ha
          exact ⟨rule, by simp, hm, rfl, ha⟩
        · rintro ⟨r, hr, hrm, hlen, hal⟩
          rcases List.mem_append.mp hr with hr | hr
          · have := hmax r hr hrm
            simp only at hlen
            omega
          · rw [List.mem_singleton.mp hr] at hal
            exact hal
    · rw [if_neg hgt]
      have hle : rule.path.length ≤ st.1 := not_lt.mp hgt
      by_cases htie : rule.path.length = st.1 ∧ st.2 = true ∧ rule.allow = false
      · rw [if_pos htie]
        refine ⟨?_, ?_, ?_⟩
        · intro r hr hrm
          rcases List.mem_append.mp hr with hr | hr
          · exact hmax r hr hrm
          · rw [List.mem_singleton.mp hr]; exact hle
        · exact Or.inr ⟨rule, by simp, hm, htie.1⟩
        · constructor
          · intro _
            exact ⟨rule, by simp, hm, htie.1, htie.2.2⟩
          · intro _
            rfl
      · rw [if_neg htie]
        refine ⟨?_, ?_, ?_⟩
        · intro r hr hrm
          rcases List.mem_append.mp hr with hr | hr
          · exact hmax r hr hrm
          · rw [List.mem_singleton.mp hr]; exact hle
        · rcases hwit with h0 | ⟨r, hr, hrm, hlen⟩
          · exact Or.inl h0
          · exact Or.inr ⟨r, List.mem_append_left _ hr, hrm, hlen⟩
        · constructor
          · intro ha
            obtain ⟨r, hr, hrm, hlen, hal⟩ := hver.mp ha
            exact ⟨r, List.mem_append_left _ hr, hrm, hlen, hal⟩
          · rintro ⟨r, hr, hrm, hlen, hal⟩
            rcases List.mem_append.mp hr with hr | hr
            · exact hver.mpr ⟨r, hr, hrm, hlen, hal⟩
            · rw [List.mem_singleton.mp hr] at hlen hal
              by_contra hne
              exact htie ⟨hlen, by simpa using hne, hal⟩
  · rw [if_neg hm]
    refine ⟨?_, ?_, ?_⟩
    · intro r hr hrm
      rcases List.mem_append.mp hr with hr | hr
      · exact hmax r hr hrm
      · rw [List.mem_singleton.mp hr] at hrm
        exact absurd hrm hm
    · rcases hwit with h0 | ⟨r, hr, hrm, hlen⟩
      · exact Or.inl h0
      · exact Or.inr ⟨r, List.mem_append_left _ hr, hrm, hlen⟩
    · constructor
      · intro ha
        obtain ⟨r, hr, hrm, hlen, hal⟩ := hver.mp ha
        exact ⟨r, List.mem_append_left _ hr, hrm, hlen, hal⟩
      · rintro ⟨r, hr, hrm, hlen, hal⟩
        rcases List.mem_append.mp hr with hr | hr
        · exact hver.mpr ⟨r, hr, hrm, hlen, hal⟩
        · rw [List.mem_singleton.mp hr] at hrm
          exact absurd hrm hm

theorem summary_check (path : Str) (rules seen : List robotRule) (st : Nat × Bool)
    (h : Summary path seen st) : Summary path (seen ++ rules) (check path st rules) := by
  induction rules generalizing seen st with
  | nil => simpa [check] using h
  | cons rule rest ih =>
    have := ih (seen ++ [rule]) (checkRule path st rule) (summary_step path seen st rule h)
    simpa [check, List.append_assoc] using this

theorem summary_nil (path : Str) : Summary path [] (0, true) := by
  refine ⟨?_, Or.inl rfl, ?_⟩
  · intro r hr
    cases hr
  · constructor
    · intro h
      cases h
    · rintro ⟨r, hr, _⟩
      cases hr

theorem isAllowed_summary (r : robotsTxt) (ua path : Str) :
    ∃ best, Summary path (consulted r ua) (best, isAllowed r ua path) := by
  unfold isAllowed consulted
  cases hua : r.uaRules ua with
  | none =>
    have := summary_check path (getRules r star) [] (0, true) (summary_nil path)
    exact ⟨_, by simpa using this⟩
  | some rules =>
    have h1 := summary_check path rules [] (0, true) (summary_nil path)
    have h2 := summary_check path (getRules r star) ([] ++ rules) _ h1
    exact ⟨_, by simpa using h2⟩

/-! ### ASCII texts: the Unicode case tables are never consulted -/

theorem mem_of_dropSpaceFront {s r : Str} (h : dropSpaceFront s = some r) :
    ∀ c ∈ r, c ∈ s := by
  unfold dropSpaceFront at h
  rcases hf : List.find? (fun e => e.isPrefixOf s) spaceRunes with _ | e
  · simp [hf] at h
  · simp only [hf, Option.map_some', Option.some.injEq] at h
    subst h
    exact fun c hc => List.mem_of_mem_drop hc

theorem mem_of_dropSpaceBack {s r : Str} (h : dropSpaceBack s = some r) :
    ∀ c ∈ r, c ∈ s := by
  unfold dropSpaceBack at h
  rcases hf : List.find? (fun e => e.isSuffixOf s) spaceRunes with _ | e
  · simp [hf] at h
  · simp only [hf, Option.map_some', Option.some.injEq] at h
    subst h
    exact fun c hc => List.mem_of_mem_take hc

theorem mem_of_trimFront (n : Nat) (s : Str) : ∀ c ∈ trimFront n s, c ∈ s := by
  induction n generalizing s with
  | zero => exact fun c hc => hc
  | succ n ih =>
    intro c hc
    unfold trimFront at hc
    rcases hd : dropSpaceFront s with _ | r
    · simpa [hd] using hc
    · simp only [hd] at hc
      exact mem_of_dropSpaceFront hd c (ih r c hc)

theorem mem_of_trimBack (n : Nat) (s : Str) : ∀ c ∈ trimBack n s, c ∈ s := by
  induction n generalizing s with
  | zero => exact fun c hc => hc
  | succ n ih =>
    intro c hc
    unfold trimBack at hc
    rcases hd : dropSpaceBack s with _ | r
    · simpa [hd] using hc
    · simp only [hd] at hc
      exact mem_of_dropSpaceBack hd c (ih r c hc)

theorem mem_of_TrimSpace (s : Str) : ∀ c ∈ TrimSpace s, c ∈ s := by
  intro c hc
  unfold TrimSpace at hc
  exact mem_of_trimFront _ _ c (mem_of_trimBack _ _ c hc)

theorem mem_of_SplitN2 (sep : Nat) (s k v : Str) (h : SplitN2 sep s = some (k, v)) :
    (∀ c ∈ k, c ∈ s) ∧ (∀ c ∈ v, c ∈ s) := by
  induction s generalizing k v with
  | nil => simp [SplitN2] at h
  | cons a as ih =>
    unfold SplitN2 at h
    by_cases ha : a = sep
    · simp only [ha, if_true, Option.some.injEq, Prod.mk.injEq] at h
      obtain ⟨hk, hv⟩ := h
      subst hk hv
      exact ⟨fun c hc => absurd hc (List.not_mem_nil c), fun c hc => List.mem_cons_of_mem _ hc⟩
    · simp only [ha, if_false] at h
      rcases hr : SplitN2 sep as with _ | ⟨k0, v0⟩
      · simp [hr] at h
      · simp only [hr, Option.map_some', Option.some.injEq, Prod.mk.injEq] at h
        obtain ⟨hk, hv⟩ := h
        subst hk hv
        obtain ⟨ihk, ihv⟩ := ih k0 v0 hr
        refine ⟨?_, fun c hc => List.mem_cons_of_mem _ (ihv c hc)⟩
        intro c hc
        rcases List.mem_cons.mp hc with hc | hc
        · exact hc ▸ List.mem_cons_self _ _
        · exact List.mem_cons_of_mem _ (ihk c hc)

theorem mem_of_SplitByte (sep : Nat) (s : Str) :
    ∀ l ∈ SplitByte sep s, ∀ c ∈ l, c ∈ s := by
  induction s with
  | nil =>
    intro l hl c hc
    simp only [SplitByte, List.mem_singleton] at hl
    subst hl
    exact hc
  | cons a as ih =>
    intro l hl c hc
    unfold SplitByte at hl
    by_cases ha : a = sep
    · simp only [ha, if_true, List.mem_cons] at hl
      rcases hl with hl | hl
      · subst hl
        cases hc
      · exact List.mem_cons_of_mem _ (ih l hl c hc)
    · simp only [ha, if_false] at hl
      rcases hr : SplitByte sep as with _ | ⟨l0, ls⟩
      · simp only [hr, List.mem_singleton] at hl
        subst hl
        exact (List.mem_singleton.mp hc) ▸ List.mem_cons_self _ _
      · simp only [hr, List.mem_cons] at hl
        rcases hl with hl | hl
        · subst hl
          rcases List.mem_cons.mp hc with hc | hc
          · exact hc ▸ List.mem_cons_self _ _
          · exact List.mem_cons_of_mem _ (ih l0 (by simp [hr]) c hc)
        · exact List.mem_cons_of_mem _ (ih l (by simp [hr, hl]) c hc)

theorem ToLower_ascii (f g : Str → Str) (s : Str) (h : ∀ c ∈ s, c < 128) :
    ToLower f s = ToLower g s := by
  have : s.all (fun c => decide (c < 128)) = true := by
    simpa [List.all_eq_true] using h
  simp [ToLower, this]

theorem parseLine_ascii (f g : Str → Str) (st : parseState) (line : Str)
    (h : ∀ c ∈ line, c < 128) : parseLine f st line = parseLine g st line := by
  unfold parseLine
  have hl : ∀ c ∈ TrimSpace line, c < 128 := fun c hc => h c (mem_of_TrimSpace _ c hc)
  rcases hs : SplitN2 58 (TrimSpace line) with _ | ⟨k, v⟩
  · simp only [hs]
  · simp only [hs]
    obtain ⟨hk, hv⟩ := mem_of_SplitN2 _ _ _ _ hs
    have e1 : ToLower f (TrimSpace k) = ToLower g (TrimSpace k) :=
      ToLower_ascii f g _ (fun c hc => hl c (hk c (mem_of_TrimSpace _ c hc)))
    have e2 : ToLower f (TrimSpace v) = ToLower g (TrimSpace v) :=
      ToLower_ascii f g _ (fun c hc => hl c (hv c (mem_of_TrimSpace _ c hc)))
    simp only [e1, e2]

theorem foldl_parseLine_ascii (f g : Str → Str) (lines : List Str) (st : parseState)
    (h : ∀ l ∈ lines, ∀ c ∈ l, c < 128) :
    lines.foldl (parseLine f) st = lines.foldl (parseLine g) st := by
  induction lines generalizing st with
  | nil => rfl
  | cons l ls ih =>
    simp only [List.foldl_cons]
    rw [parseLine_ascii f g st l (h l (List.mem_cons_self _ _))]
    exact ih _ (fun l' hl' => h l' (List.mem_cons_of_mem _ hl'))

/-- On an ASCII text `parseRobots` does not depend on the Unicode lower-casing. -/
theorem parseRobots_ascii (f g : Str → Str) (text : Str) (rob : robotsTxt)
    (h : ∀ c ∈ text, c < 128) : parseRobots f text rob = parseRobots g text rob := by
  unfold parseRobots
  rw [foldl_parseLine_ascii f g _ _ (fun l hl c hc => h c (mem_of_SplitByte _ _ l hl c hc))]

theorem isAllowed_eq_false_iff (r : robotsTxt) (ua path : Str) :
    isAllowed r ua path = false ↔
      ∃ d ∈ consulted r ua, d.allow = false ∧ Matches d.path path ∧
        ∀ a ∈ consulted r ua, Matches a.path path → a.path.length ≤ d.path.length := by
  obtain ⟨best, hmax, hwit, hver⟩ := isAllowed_summary r ua path
  simp only at hmax hwit hver
  rw [hver]
  constructor
  · rintro ⟨d, hd, hdm, hlen, hal⟩
    exact ⟨d, hd, hal, hdm, fun a ha ham => hlen ▸ hmax a ha ham⟩
  · rintro ⟨d, hd, hal, hdm, hlong⟩
    have hpos := matches_pos hdm
    have hdb := hmax d hd hdm
    rcases hwit with h0 | ⟨w, hw, hwm, hwl⟩
    · omega
    · have := hlong w hw hwm
      exact ⟨d, hd, hdm, by omega, hal⟩

/-- C1. `isAllowed` returns the verdict of the longest matching non-empty rule path among
the rules of the queried group and of the group `*`: the result is "blocked" exactly when a
matching Disallow rule exists whose path is at least as long as every matching rule path
(so a Disallow wins a tie, and with no matching rule the result is "allowed").  For the
policy parsed from `User-agent: *`, `Disallow: /jobs`, `Allow: /jobs/api` the paths `/jobs`,
`/jobs/`, `/jobs/foo`, `/jobs/apis` are blocked and `/`, `/job`, `/jobs/api`, `/jobs/api/`,
`/jobs/api/v1` are allowed. -/
theorem isAllowed_longest_match :
    (∀ (r : robotsTxt) (ua path : Str),
      (isAllowed r ua path = false ↔
        ∃ d ∈ consulted r ua, d.allow = false ∧ Matches d.path path ∧
          ∀ a ∈ consulted r ua, Matches a.path path → a.path.length ≤ d.path.length)) ∧
    (∀ unicodeLower : Str → Str,
      let rob := parseRobots unicodeLower jobsText freshRobots
      isAllowed rob star (lit "/jobs") = false ∧
      isAllowed rob star (lit "/jobs/") = false ∧
      isAllowed rob star (lit "/jobs/foo") = false ∧
      isAllowed rob star (lit "/jobs/apis") = false ∧
      isAllowed rob star (lit "/") = true ∧
      isAllowed rob star (lit "/job") = true ∧
      isAllowed rob star (lit "/jobs/api") = true ∧
      isAllowed rob star (lit "/jobs/api/") = true ∧
      isAllowed rob star (lit "/jobs/api/v1") = true) := by
  refine ⟨isAllowed_eq_false_iff, ?_⟩
  intro unicodeLower
  have hascii : ∀ c ∈ jobsText, c < 128 := by decide!
  rw [parseRobots_ascii unicodeLower (fun s => s) jobsText freshRobots hascii]
  decide!

/-- C2. Rule matching is boundary-aware: in a policy whose group `*` holds the single rule
`Disallow: P`, with `P` not empty, a path `p` is blocked for `*` exactly when `p == P` or
`p` starts with `rtrim(P, "/") + "/"`. -/
theorem disallow_boundary_aware (P p : Str) (r : robotsTxt) (hP : P ≠ [])
    (hne : getRules r star ≠ []) (honly : ∀ x ∈ getRules r star, x = ⟨false, P⟩) :
    isAllowed r star p = false ↔ (p = P ∨ (TrimRightByte P 47 ++ lit "/") <+: p) := by
  have hcons : ∀ x ∈ consulted r star, x = ⟨false, P⟩ := by
    intro x hx
    unfold consulted at hx
    rcases List.mem_append.mp hx with hx | hx
    · exact honly x hx
    · exact honly x hx
  rw [isAllowed_eq_false_iff]
  constructor
  · rintro ⟨d, hd, -, hdm, -⟩
    rw [hcons d hd] at hdm
    exact hdm.2
  · intro hp
    obtain ⟨x, hx⟩ := List.exists_mem_of_ne_nil _ hne
    have hxe := honly x hx
    refine ⟨x, List.mem_append_right _ hx, by rw [hxe], by rw [hxe]; exact ⟨hP, hp⟩, ?_⟩
    intro a ha _
    rw [hcons a ha, hxe]

/-- The policy of `TestBoundaryMatching_DisallowJobs`, parsed from `User-agent: *`,
`Disallow: /jobs`: `/jobs`, `/jobs/`, `/jobs/foo` are blocked; `/job`, `/jobs2`, `/` and
`/documentation` are allowed. -/
theorem disallow_boundary_aware_witness :
    isAllowed (parseRobots (fun s => s) jobsOnlyText freshRobots) star (lit "/jobs") = false ∧
    isAllowed (parseRobots (fun s => s) jobsOnlyText freshRobots) star (lit "/jobs/") = false ∧
    isAllowed (parseRobots (fun s => s) jobsOnlyText freshRobots) star (lit "/jobs/foo") = false ∧
    ¬ isAllowed (parseRobots (fun s => s) jobsOnlyText freshRobots) star (lit "/job") = false ∧
    ¬ isAllowed (parseRobots (fun s => s) jobsOnlyText freshRobots) star (lit "/jobs2") = false ∧
    ¬ isAllowed (parseRobots (fun s => s) jobsOnlyText freshRobots) star (lit "/") = false ∧
    ¬ isAllowed (parseRobots (fun s => s) jobsOnlyText freshRobots) star (lit "/documentation")
      = false := by
  have hP : lit "/jobs" ≠ [] := by decide
  have hne : getRules (parseRobots (fun s => s) jobsOnlyText freshRobots) star ≠ [] := by
    decide!
  have honly : ∀ x ∈ getRules (parseRobots (fun s => s) jobsOnlyText freshRobots) star,
      x = ⟨false, lit "/jobs"⟩ := by decide!
  refine ⟨?_, ?_, ?_, ?_, ?_, ?_, ?_⟩
  · exact (disallow_boundary_aware _ _ _ hP hne honly).mpr (by decide!)
  · exact (disallow_boundary_aware _ _ _ hP hne honly).mpr (by decide!)
  · exact (disallow_boundary_aware _ _ _ hP hne honly).mpr (by decide!)
  · exact fun h => absurd ((disallow_boundary_aware _ _ _ hP hne honly).mp h) (by decide!)
  · exact fun h => absurd ((disallow_boundary_aware _ _ _ hP hne honly).mp h) (by decide!)
  · exact fun h => absurd ((disallow_boundary_aware _ _ _ hP hne honly).mp h) (by decide!)
  · exact fun h => absurd ((disallow_boundary_aware _ _ _ hP hne honly).mp h) (by decide!)

theorem parseLine_directive (uL : Str → Str) (st : parseState) (line : Str) :
    parseLine uL st line =
      match directive uL line with
      | none => st
      | some (Directive.agent ua) =>
        ⟨[ua], if (st.rob.uaRules ua).isSome then st.rob else setRules st.rob ua []⟩
      | some (Directive.rule r) => addRule st r := by
  unfold parseLine directive
  by_cases h1 : TrimSpace line = [] ∨ HasPrefix (TrimSpace line) (lit "#") = true
  · simp only [h1, if_true]
  · simp only [h1, if_false]
    rcases hs : SplitN2 58 (TrimSpace line) with _ | ⟨k, v⟩
    · simp only
    · simp only
      by_cases h2 : ToLower uL (TrimSpace k) = lit "user-agent"
      · simp only [h2, if_true]
      · simp only [h2, if_false]
        by_cases h3 : ToLower uL (TrimSpace k) = lit "allow"
        · simp only [h3, if_true]
        · simp only [h3, if_false]
          by_cases h4 : ToLower uL (TrimSpace k) = lit "disallow"
          · simp only [h4, if_true]
          · simp only [h4, if_false]

theorem nearestAgent_snoc (uL : Str → Str) (pre : List Str) (l : Str) :
    nearestAgent uL (pre ++ [l]) =
      match agentOf uL l with
      | some ua => some ua
      | none => nearestAgent uL pre := by
  unfold nearestAgent
  rw [List.reverse_append, List.reverse_singleton, List.singleton_append, List.filterMap_cons]
  cases agentOf uL l <;> simp

theorem declaredFor_snoc (uL : Str → Str) (pre : List Str) (l g : Str) :
    declaredFor uL (pre ++ [l]) g =
      declaredFor uL pre g ++
        (if nearestAgent uL pre = some g then (ruleOf uL l).toList else []) := by
  unfold declaredFor
  rw [List.length_append, List.length_singleton, List.range_succ, List.filterMap_append]
  congr 1
  · apply List.filterMap_congr
    intro i hi
    have hi' : i < pre.length := List.mem_range.mp hi
    rw [List.take_append_of_le_length (le_of_lt hi'), List.getD_append _ _ _ _ hi']
  · simp only [List.filterMap_cons, List.filterMap_nil, List.take_left']
    have : (pre ++ [l]).getD pre.length [] = l := by
      simp [List.getD_eq_getElem?_getD]
    rw [this]
    by_cases hn : nearestAgent uL pre = some g
    · simp only [hn, if_true]
      cases ruleOf uL l <;> rfl
    · simp only [hn, if_false]
theorem getRules_appendRule (rob : robotsTxt) (ua k : Str) (rule : robotRule) :
    getRules (appendRule rob ua rule) k =
      if k = ua then getRules rob ua ++ [rule] else getRules rob k := by
  unfold appendRule setRules getRules
  by_cases h : k = ua <;> simp [h]

theorem isSome_appendRule (rob : robotsTxt) (ua k : Str) (rule : robotRule) :
    ((appendRule rob ua rule).uaRules k).isSome = true ↔
      (k = ua ∨ (rob.uaRules k).isSome = true) := by
  unfold appendRule setRules
  by_cases h : k = ua <;> simp [h]

theorem nearestAgent_mem (uL : Str → Str) (pre : List Str) (g : Str)
    (h : nearestAgent uL pre = some g) : ∃ l ∈ pre, agentOf uL l = some g := by
  unfold nearestAgent at h
  have hm : g ∈ pre.reverse.filterMap (agentOf uL) := List.mem_of_mem_head? h
  obtain ⟨l, hl, hg⟩ := List.mem_filterMap.mp hm
  exact ⟨l, List.mem_reverse.mp hl, hg⟩

theorem exists_mem_snoc {α : Type} (p : α → Prop) (pre : List α) (l : α) :
    (∃ x ∈ pre ++ [l], p x) ↔ ((∃ x ∈ pre, p x) ∨ p l) := by
  constructor
  · rintro ⟨x, hx, hp⟩
    rcases List.mem_append.mp hx with hx | hx
    · exact Or.inl ⟨x, hx, hp⟩
    · exact Or.inr (List.mem_singleton.mp hx ▸ hp)
  · rintro (⟨x, hx, hp⟩ | hp)
    · exact ⟨x, List.mem_append_left _ hx, hp⟩
    · exact ⟨l, by simp, hp⟩

theorem parseInv_step (uL : Str → Str) (pre : List Str) (st : parseState) (l : Str)
    (h : ParseInv uL pre st) : ParseInv uL (pre ++ [l]) (parseLine uL st l) := by
  obtain ⟨hcur, hgrp, hkey, hstar⟩ := h
  rw [parseLine_directive]
  unfold ParseInv
  simp only [nearestAgent_snoc, declaredFor_snoc, exists_mem_snoc]
  rcases hd : directive uL l with _ | ua | r
  · have ha : agentOf uL l = none := by simp [agentOf, hd]
    have hr : ruleOf uL l = none := by simp [ruleOf, hd]
    simp only [ha, hr, Option.toList_none, ite_self, List.append_nil, reduceCtorEq, or_false]
    exact ⟨hcur, hgrp, hkey, hstar⟩
  · have ha : agentOf uL l = some ua := by simp [agentOf, hd]
    have hr : ruleOf uL l = none := by simp [ruleOf, hd]
    simp only [ha, hr, Option.toList_none, ite_self, List.append_nil, reduceCtorEq, or_false,
      Option.toList_some, Option.some.injEq, true_and]
    by_cases hs : (st.rob.uaRules ua).isSome = true
    · simp only [hs, if_true]
      refine ⟨hgrp, ?_, hstar⟩
      intro g hg
      rw [hkey g hg]
      constructor
      · exact Or.inl
      · rintro (h | h)
        · exact h
        · exact (hkey g hg).mp (h ▸ hs)
    · rw [if_neg hs]
      have hnone : st.rob.uaRules ua = none := by
        simpa using hs
      have hget : ∀ k, getRules (setRules st.rob ua []) k = getRules st.rob k := by
        intro k
        unfold getRules setRules
        by_cases hk : k = ua
        · simp [hk, hnone]
        · simp [hk]
      refine ⟨fun g hg => (hget g).trans (hgrp g hg), ?_, fun rule => by rw [hget]; exact hstar rule⟩
      intro g hg
      unfold setRules
      by_cases hk : g = ua
      · simp [hk]
      · have hk' : ¬ ua = g := fun e => hk e.symm
        simp only [hk, if_false, hk', or_false]
        exact hkey g hg
  · have ha : agentOf uL l = none := by simp [agentOf, hd]
    have hr : ruleOf uL l = some r := by simp [ruleOf, hd]
    simp only [ha, hr, Option.toList_some, reduceCtorEq, or_false, Option.some.injEq]
    unfold addRule
    simp only [hcur]
    rcases hn : nearestAgent uL pre with _ | g0
    · simp only [Option.toList_none, List.foldl_nil, true_and, getRules_appendRule,
        isSome_appendRule]
      refine ⟨?_, ?_, ?_⟩
      · intro g hg
        simp [hg, hgrp g hg]
      · intro g hg
        simp only [hg, false_or]
        exact hkey g hg
      · intro rule
        simp only [if_true, List.mem_append, List.mem_singleton, hstar rule]
        constructor
        · rintro (h | h)
          · exact Or.inl h
          · exact Or.inr h.symm
        · rintro (h | h)
          · exact Or.inl h
          · exact Or.inr h.symm
    · obtain ⟨l0, hl0, hl0a⟩ := nearestAgent_mem uL pre g0 hn
      simp only [Option.toList_some, List.foldl_cons, List.foldl_nil, true_and,
        getRules_appendRule, isSome_appendRule, Option.some.injEq]
      refine ⟨?_, ?_, ?_⟩
      · intro g hg
        simp only [hg, if_false]
        by_cases hgg : g = g0
        · subst hgg
          simp [hgrp g hg]
        · have hgg' : ¬ g0 = g := fun e => hgg e.symm
          simp [hgg, hgg', hgrp g hg]
      · intro g hg
        simp only [hg, false_or]
        constructor
        · rintro (h | h)
          · exact ⟨l0, hl0, h ▸ hl0a⟩
          · exact (hkey g hg).mp h
        · intro h
          exact Or.inr ((hkey g hg).mpr h)
      · intro rule
        simp only [if_true, List.mem_append, List.mem_singleton]
        by_cases hs : star = g0
        · simp only [hs, if_true, List.mem_append, List.mem_singleton]
          rw [← hs, hstar rule]
          constructor
          · rintro ((h | h) | h)
            · exact Or.inl h
            · exact Or.inr h.symm
            · exact Or.inr h.symm
          · rintro (h | h)
            · exact Or.inl (Or.inl h)
            · exact Or.inr h.symm
        · simp only [hs, if_false, hstar rule]
          constructor
          · rintro (h | h)
            · exact Or.inl h
            · exact Or.inr h.symm
          · rintro (h | h)
            · exact Or.inl h
            · exact Or.inr h.symm
theorem parseInv_foldl (uL : Str → Str) (rest pre : List Str) (st : parseState)
    (h : ParseInv uL pre st) : ParseInv uL (pre ++ rest) (rest.foldl (parseLine uL) st) := by
  induction rest generalizing pre st with
  | nil => simpa using h
  | cons l ls ih =>
    have := ih (pre ++ [l]) (parseLine uL st l) (parseInv_step uL pre st l h)
    simpa [List.append_assoc] using this

theorem parseInv_init (uL : Str → Str) : ParseInv uL [] ⟨[], freshRobots⟩ := by
  refine ⟨rfl, ?_, ?_, ?_⟩
  · intro g hg
    simp [getRules, freshRobots, hg, declaredFor]
  · intro g hg
    simp [freshRobots, hg]
  · intro rule
    simp [getRules, freshRobots]

/-- C3. After `parseRobots` on the fresh policy `{"*": []}`: every `allow`/`disallow` line
of the text contributes its rule to the group `*` (and that group holds nothing else); for a
named user-agent `g` other than `*`, the group of `g` is exactly the list of the rules of
the lines whose nearest preceding `user-agent` line names `g`, so no rule is added to the
group of an earlier `user-agent` line; and `g` is a key of the policy exactly when some
`user-agent` line names it. -/
theorem parseRobots_groups (unicodeLower : Str → Str) (text : Str) :
    let lines := SplitByte 10 text
    let rob := parseRobots unicodeLower text freshRobots
    (∀ l ∈ lines, ∀ rule, ruleOf unicodeLower l = some rule → rule ∈ getRules rob star) ∧
    (∀ g, g ≠ star → getRules rob g = declaredFor unicodeLower lines g) ∧
    (∀ g, g ≠ star →
      ((rob.uaRules g).isSome = true ↔ ∃ l ∈ lines, agentOf unicodeLower l = some g)) ∧
    (∀ rule ∈ getRules rob star, ∃ l ∈ lines, ruleOf unicodeLower l = some rule) := by
  intro lines rob
  have h := parseInv_foldl unicodeLower lines [] ⟨[], freshRobots⟩ (parseInv_init unicodeLower)
  rw [List.nil_append] at h
  obtain ⟨-, hgrp, hkey, hstar⟩ := h
  exact ⟨fun l hl rule hr => (hstar rule).mpr ⟨l, hl, hr⟩, hgrp, hkey,
    fun rule hr => (hstar rule).mp hr⟩

/-- The groups of a text with a rule before any `user-agent` line and two named groups. -/
theorem parseRobots_twoGroups :
    let rob := parseRobots (fun s => s) twoGroupsText freshRobots
    rob.uaRules (lit "googlebot") = some [⟨false, lit "/a"⟩] ∧
    rob.uaRules (lit "bingbot") = some [⟨true, lit "/b"⟩] ∧
    rob.uaRules (lit "Googlebot") = none ∧
    rob.uaRules star = some [⟨false, lit "/tmp"⟩, ⟨false, lit "/a"⟩, ⟨true, lit "/b"⟩] ∧
    declaredFor (fun s => s) (SplitByte 10 twoGroupsText) (lit "googlebot")
      = [⟨false, lit "/a"⟩] := by
  decide!

/-! ### `canonicalURL` -/

/-- The fragment of the argument never reaches the canonical string. -/
theorem canonicalURL_fragment (u : URL) (f rf : Str) :
    canonicalURL { u with Fragment := f, RawFragment := rf } = canonicalURL u := by
  unfold canonicalURL canonicalClone
  simp only [URL.Port, URL.Hostname]
  split_ifs <;> simp [URL.String, URL.EscapedPath]

/-- An empty path and the path `/` give the same canonical string. -/
theorem canonicalURL_empty_path (u : URL) :
    canonicalURL { u with Path := [] } = canonicalURL { u with Path := lit "/" } := by
  unfold canonicalURL canonicalClone
  simp only [URL.Port, URL.Hostname]
  have h : lit "/" ≠ [] := by decide
  split_ifs <;> simp_all

theorem lastIndexByte_none (s : Str) (c : Nat) (h : c ∉ s) : LastIndexByte s c = none := by
  unfold LastIndexByte
  have : s.reverse.indexOf? c = none := by
    rw [List.indexOf?_eq_none_iff]
    intro x hx hxc
    have : x = c := by simpa using hxc
    exact h (this ▸ List.mem_reverse.mp hx)
  rw [this]

theorem lastIndexByte_append (s t : Str) (c : Nat) (h : c ∉ t) :
    LastIndexByte (s ++ c :: t) c = some s.length := by
  unfold LastIndexByte
  have hidx : (s ++ c :: t).reverse.indexOf? c = some t.length := by
    rw [List.reverse_append, List.reverse_cons, List.append_assoc]
    unfold List.indexOf?
    rw [List.findIdx?_append]
    have hnone : List.findIdx? (fun x => x == c) t.reverse = none := by
      rw [List.findIdx?_eq_none_iff]
      intro x hx
      have hne : x ≠ c := fun e => h (e ▸ List.mem_reverse.mp hx)
      simpa using hne
    simp [hnone]
  rw [hidx]
  simp only [List.length_append, List.length_cons, Option.some.injEq]
  omega

theorem splitHostPort_plain (h : Str) (hc : 58 ∉ h) (hb : HasPrefix h (lit "[") = false) :
    splitHostPort h = (h, []) := by
  unfold splitHostPort
  rw [lastIndexByte_none h 58 hc]
  simp [hb]

theorem splitHostPort_port (h digits : Str)
    (hd : digits.all (fun b => decide (48 ≤ b ∧ b ≤ 57)) = true)
    (hb : HasPrefix h (lit "[") = false) :
    splitHostPort (h ++ 58 :: digits) = (h, digits) := by
  have hnd : 58 ∉ digits := by
    intro hm
    have := List.all_eq_true.mp hd 58 hm
    simp at this
  unfold splitHostPort
  rw [lastIndexByte_append h digits 58 hnd]
  have hv : validOptionalPort (List.drop h.length (h ++ 58 :: digits)) = true := by
    rw [List.drop_left' rfl]
    simpa [validOptionalPort] using hd
  have ht : List.take h.length (h ++ 58 :: digits) = h := List.take_left' rfl
  have hdr : List.drop (h.length + 1) (h ++ 58 :: digits) = digits := by
    rw [← List.drop_drop, List.drop_left' rfl]
    rfl
  simp only [hv, if_true, ht, hdr, hb, Bool.false_and, Bool.false_eq_true, if_false]

/-- For a host without colon and opening bracket, the default port does not reach the
canonical string: `http` with `:80` and `https` with `:443` canonicalise like the URL
without port. -/
theorem canonicalURL_default_port (u : URL) (h : Str) (hc : 58 ∉ h)
    (hb : HasPrefix h (lit "[") = false) :
    canonicalURL { u with Scheme := lit "http", Host := h ++ lit ":80" } =
      canonicalURL { u with Scheme := lit "http", Host := h } ∧
    canonicalURL { u with Scheme := lit "https", Host := h ++ lit ":443" } =
      canonicalURL { u with Scheme := lit "https", Host := h } := by
  have e80 : splitHostPort (h ++ lit ":80") = (h, lit "80") :=
    splitHostPort_port h (lit "80") (by decide) hb
  have e443 : splitHostPort (h ++ lit ":443") = (h, lit "443") :=
    splitHostPort_port h (lit "443") (by decide) hb
  have e0 : splitHostPort h = (h, []) := splitHostPort_plain h hc hb
  have n1 : ¬ (([] : Str) = lit "80") := by decide
  have n2 : ¬ (([] : Str) = lit "443") := by decide
  have n3 : ¬ (lit "http" = lit "https") := by decide
  have n4 : ¬ (lit "https" = lit "http") := by decide
  constructor
  · unfold canonicalURL canonicalClone
    simp [URL.Port, URL.Hostname, e80, e0, n1, n3]
  · unfold canonicalURL canonicalClone
    simp [URL.Port, URL.Hostname, e443, e0, n2, n4]

/-- C4. At the URL `http://[::80]:80/` (an IPv6-literal host with the default port)
`canonicalURL` drops the brackets with the port and returns `http://::80/`; that string
names the host `::80`, whose canonical string is `http://:/`: canonicalising twice does not
give the canonical string again. -/
theorem canonicalURL_ipv6_not_idempotent :
    canonicalURL { Scheme := lit "http", Host := lit "[::80]:80", Path := lit "/" }
      = lit "http://::80/" ∧
    canonicalURL { Scheme := lit "http", Host := lit "::80", Path := lit "/" }
      = lit "http://:/" ∧
    canonicalURL { Scheme := lit "http", Host := lit "::80", Path := lit "/" } ≠
      canonicalURL { Scheme := lit "http", Host := lit "[::80]:80", Path := lit "/" } := by
  decide!

/-- C5. At the URL `http://[::1]:80/` `canonicalURL` returns `http://::1/`, while at the
same URL without the port, `http://[::1]/`, it returns `http://[::1]/`: the default port
is not the only difference left between the two canonical strings. -/
theorem canonicalURL_ipv6_default_port :
    canonicalURL { Scheme := lit "http", Host := lit "[::1]:80", Path := lit "/" }
      = lit "http://::1/" ∧
    canonicalURL { Scheme := lit "http", Host := lit "[::1]", Path := lit "/" }
      = lit "http://[::1]/" ∧
    canonicalURL { Scheme := lit "http", Host := lit "[::1]:80", Path := lit "/" } ≠
      canonicalURL { Scheme := lit "http", Host := lit "[::1]", Path := lit "/" } := by
  decide!

/-! ### Content fingerprint -/

/-- C6. The hash of `seenContent` starts from `1469598103934665603`, not from the FNV-1a
offset basis `0xcbf29ce484222325 = 14695981039346656037`: on the empty input and on the
one-byte input `a` it differs from the 64-bit FNV-1a hash. -/
theorem contentHash_not_fnv1a :
    contentHash [] = 1469598103934665603 ∧ fnv1a64 [] = 14695981039346656037 ∧
    contentHash [] ≠ fnv1a64 [] ∧
    fnv1a64 (lit "a") = 0xaf63dc4c8601ec8c ∧ contentHash (lit "a") ≠ fnv1a64 (lit "a") := by
  decide!

/-! ### The loop of `Crawl` -/

/-- What one iteration of the loop does: nothing on an empty queue; drop a visited item;
leave by `break` when the budget is used up; otherwise dispatch the item. -/
theorem crawlStep_cases (w : World) (opts : Options) (start : URL) (s : CrawlState) :
    (s.queue = [] ∧ crawlStep w opts start s = s) ∨
    (∃ item rest, s.queue = item :: rest ∧ canonicalURL item.u ∈ s.visited ∧
      crawlStep w opts start s = { s with queue := rest }) ∨
    (∃ item rest, s.queue = item :: rest ∧ canonicalURL item.u ∉ s.visited ∧
      (opts.MaxPages > 0 ∧ s.pages ≥ opts.MaxPages) ∧
      crawlStep w opts start s = { s with queue := rest, halted := true }) ∨
    (∃ item rest, s.queue = item :: rest ∧ canonicalURL item.u ∉ s.visited ∧
      ¬ (opts.MaxPages > 0 ∧ s.pages ≥ opts.MaxPages) ∧
      ∃ pages seen extra,
        crawlStep w opts start s =
          { queue := rest ++ extra, visited := canonicalURL item.u :: s.visited,
            pages := pages, seenHashes := seen, halted := s.halted,
            fetched := s.fetched ++ [item] } ∧
        (pages = s.pages ∨ pages = s.pages + 1) ∧
        (extra = [] ∨
          (item.depth < opts.MaxDepth ∧
            extra = (admitted w opts start (extractLinks w
              (w.FetchDocument (s.fetched.map (fun i => i.u.String)) item.u.String
                opts.UserAgent).hrefs item.u)).map (fun link => ⟨link, item.depth + 1⟩)))) := by
  rcases hq : s.queue with _ | ⟨item, rest⟩
  · left
    exact ⟨rfl, by simp [crawlStep, hq]⟩
  · right
    by_cases hv : canonicalURL item.u ∈ s.visited
    · left
      exact ⟨item, rest, rfl, hv, by simp [crawlStep, hq, hv]⟩
    · right
      by_cases hb : opts.MaxPages > 0 ∧ s.pages ≥ opts.MaxPages
      · left
        exact ⟨item, rest, rfl, hv, hb, by simp [crawlStep, hq, hv, hb]⟩
      · right
        refine ⟨item, rest, rfl, hv, hb, ?_⟩
        unfold crawlStep
        simp only [hq, hv, hb, if_false]
        split_ifs
        · exact ⟨_, _, [], by rw [List.append_nil], Or.inl rfl, Or.inl rfl⟩
        · exact ⟨_, _, [], by rw [List.append_nil], Or.inr rfl, Or.inl rfl⟩
        · exact ⟨_, _, [], by rw [List.append_nil], Or.inr rfl, Or.inl rfl⟩
        · refine ⟨_, _, _, rfl, Or.inr rfl, Or.inr ⟨by omega, rfl⟩⟩
        · exact ⟨_, _, [], by rw [List.append_nil], Or.inl rfl, Or.inl rfl⟩
        · exact ⟨_, _, [], by rw [List.append_nil], Or.inl rfl, Or.inl rfl⟩
        · refine ⟨_, _, _, rfl, Or.inl rfl, Or.inr ⟨by omega, rfl⟩⟩

theorem crawlRun_invariant (w : World) (opts : Options) (start : URL)
    (P : CrawlState → Prop) (hstep : ∀ s, P s → P (crawlStep w opts start s)) :
    ∀ (n : Nat) (s : CrawlState), P s → P (crawlRun w opts start n s) := by
  intro n
  induction n with
  | zero => exact fun s hs => hs
  | succ n ih =>
    intro s hs
    unfold crawlRun
    split_ifs
    · exact ih _ (hstep s hs)
    · exact hs

theorem crawlRun_not_running (w : World) (opts : Options) (start : URL) (n : Nat)
    (s : CrawlState) (h : running s = false) : crawlRun w opts start n s = s := by
  cases n with
  | zero => rfl
  | succ n => simp [crawlRun, h]

theorem crawlRun_succ (w : World) (opts : Options) (start : URL) (n : Nat)
    (s : CrawlState) :
    crawlRun w opts start (n + 1) s =
      if running s then crawlRun w opts start n (crawlStep w opts start s) else s := rfl

theorem crawlRun_add (w : World) (opts : Options) (start : URL) (a b : Nat)
    (s : CrawlState) :
    crawlRun w opts start (a + b) s = crawlRun w opts start b (crawlRun w opts start a s) := by
  induction a generalizing s with
  | zero => simp [crawlRun]
  | succ a ih =>
    rw [Nat.succ_add, crawlRun_succ, crawlRun_succ]
    by_cases hr : running s = true
    · rw [if_pos hr, if_pos hr]
      exact ih _
    · rw [if_neg hr, if_neg hr]
      exact (crawlRun_not_running w opts start b s (by simpa using hr)).symm

theorem dispatchInv_step (w : World) (opts : Options) (start : URL) (s : CrawlState)
    (h : DispatchInv s) : DispatchInv (crawlStep w opts start s) := by
  obtain ⟨hnd, hvis⟩ := h
  rcases crawlStep_cases w opts start s with ⟨-, he⟩ | ⟨item, rest, -, -, he⟩ |
    ⟨item, rest, -, -, -, he⟩ | ⟨item, rest, -, hv, -, pages, seen, extra, he, -, -⟩
  · rw [he]; exact ⟨hnd, hvis⟩
  · rw [he]; exact ⟨hnd, hvis⟩
  · rw [he]; exact ⟨hnd, hvis⟩
  · rw [he]
    constructor
    · simp only [List.map_append, List.map_cons, List.map_nil]
      refine List.Nodup.append hnd (List.nodup_singleton _) ?_
      intro c hc hc'
      rw [List.mem_singleton] at hc'
      subst hc'
      obtain ⟨i, hi, hci⟩ := List.mem_map.mp hc
      exact hv (hci ▸ hvis i hi)
    · intro i hi
      simp only at hi ⊢
      rcases List.mem_append.mp hi with hi | hi
      · exact List.mem_cons_of_mem _ (hvis i hi)
      · rw [List.mem_singleton.mp hi]
        exact List.mem_cons_self _ _

/-- C7. Exactly-once dispatch: at every point of a run of `Crawl`, for every start URL,
options and behaviour of the fetcher, the canonical forms of the URLs for which
`FetchDocument` was called are pairwise different: no canonical URL is dispatched twice. -/
theorem crawl_dispatch_once (w : World) (opts : Options) (start : URL)
    (seenHashes : List Nat) (n : Nat) :
    ((crawlRun w opts start n (crawlInit start seenHashes)).fetched.map
      (fun i => canonicalURL i.u)).Nodup := by
  have h := crawlRun_invariant w opts start DispatchInv (dispatchInv_step w opts start) n
    (crawlInit start seenHashes) ⟨by simp [crawlInit], by simp [crawlInit]⟩
  exact h.1

/-- On the small site, seven iterations end the run: the seed, `/a` and `/b` are fetched
once each although `/a` and `/b` are enqueued three times each. -/
theorem crawl_demo_run :
    (Crawl demoWorld { MaxDepth := 2 } demoStart [] 7).map
        (fun s => (s.fetched.map (fun i => canonicalURL i.u), s.pages, s.queue)) =
      some (demoSite, 3, []) ∧
    ((crawlRun demoWorld { MaxDepth := 2 } demoStart 3 (crawlInit demoStart [])).queue.map
        (fun i => (i.u.String, i.depth))) =
      [(lit "http://h:80/a", 2), (lit "http://h:80/b", 2), (lit "http://h:80/a", 2),
       (lit "http://h:80/b", 2)] := by
  decide!

theorem pages_step (w : World) (opts : Options) (start : URL) (s : CrawlState)
    (hP : 0 < opts.MaxPages) (h : s.pages ≤ opts.MaxPages) :
    (crawlStep w opts start s).pages ≤ opts.MaxPages := by
  rcases crawlStep_cases w opts start s with ⟨-, he⟩ | ⟨item, rest, -, -, he⟩ |
    ⟨item, rest, -, -, -, he⟩ | ⟨item, rest, -, -, hb, pages, seen, extra, he, hp, -⟩
  · rw [he]; exact h
  · rw [he]; exact h
  · rw [he]; exact h
  · rw [he]
    simp only
    have : s.pages < opts.MaxPages := by
      by_contra hlt
      exact hb ⟨hP, not_lt.mp hlt⟩
    rcases hp with hp | hp <;> omega

theorem budget_step (w : World) (opts : Options) (start : URL) (s : CrawlState)
    (hP : 0 < opts.MaxPages) (h : opts.MaxPages ≤ s.pages) :
    (crawlStep w opts start s).fetched = s.fetched ∧
      (crawlStep w opts start s).pages = s.pages := by
  rcases crawlStep_cases w opts start s with ⟨-, he⟩ | ⟨item, rest, -, -, he⟩ |
    ⟨item, rest, -, -, -, he⟩ | ⟨item, rest, -, -, hb, -⟩
  · rw [he]; exact ⟨rfl, rfl⟩
  · rw [he]; exact ⟨rfl, rfl⟩
  · rw [he]; exact ⟨rfl, rfl⟩
  · exact absurd ⟨hP, h⟩ hb

theorem budget_run (w : World) (opts : Options) (start : URL) (hP : 0 < opts.MaxPages)
    (k : Nat) (s : CrawlState) (h : opts.MaxPages ≤ s.pages) :
    (crawlRun w opts start k s).fetched = s.fetched ∧
      (crawlRun w opts start k s).pages = s.pages := by
  induction k generalizing s with
  | zero => exact ⟨rfl, rfl⟩
  | succ k ih =>
    rw [crawlRun_succ]
    split_ifs
    · obtain ⟨hf, hp⟩ := budget_step w opts start s hP h
      obtain ⟨hf', hp'⟩ := ih (crawlStep w opts start s) (by rw [hp]; exact h)
      exact ⟨hf'.trans hf, hp'.trans hp⟩
    · exact ⟨rfl, rfl⟩

/-- C8. Page budget: in a run of `Crawl` with `MaxPages = P > 0`, for every behaviour of
the fetcher and of the save, the counter `pages` is at most `P` after any number of
iterations, and once it has reached `P` no further `FetchDocument` call is made: the log of
dispatched items is the same at every later point of the run. -/
theorem crawl_page_budget (w : World) (opts : Options) (start : URL)
    (seenHashes : List Nat) (hP : 0 < opts.MaxPages) (n k : Nat) :
    (crawlRun w opts start n (crawlInit start seenHashes)).pages ≤ opts.MaxPages ∧
    (opts.MaxPages ≤ (crawlRun w opts start n (crawlInit start seenHashes)).pages →
      (crawlRun w opts start (n + k) (crawlInit start seenHashes)).fetched =
        (crawlRun w opts start n (crawlInit start seenHashes)).fetched) := by
  constructor
  · exact crawlRun_invariant w opts start (fun s => s.pages ≤ opts.MaxPages)
      (fun s hs => pages_step w opts start s hP hs) n (crawlInit start seenHashes)
      (le_of_lt hP)
  · intro h
    rw [crawlRun_add]
    exact (budget_run w opts start hP k _ h).1

/-- On the small site with `MaxPages = 2`: after two iterations the counter is 2, and the
third item is never fetched. -/
theorem crawl_page_budget_witness :
    (0 : Int) < 2 ∧
    (crawlRun demoWorld { MaxDepth := 2, MaxPages := 2 } demoStart 2
      (crawlInit demoStart [])).pages = 2 ∧
    (crawlRun demoWorld { MaxDepth := 2, MaxPages := 2 } demoStart (2 + 5)
      (crawlInit demoStart [])).fetched =
    (crawlRun demoWorld { MaxDepth := 2, MaxPages := 2 } demoStart 2
      (crawlInit demoStart [])).fetched ∧
    (crawlRun demoWorld { MaxDepth := 2, MaxPages := 2 } demoStart 2
      (crawlInit demoStart [])).fetched.length = 2 :=
  ⟨by decide, by decide!,
    (crawl_page_budget demoWorld { MaxDepth := 2, MaxPages := 2 } demoStart [] (by decide)
      2 5).2 (by decide!),
    by decide!⟩
theorem mem_admitted (w : World) (opts : Options) (start : URL) (links : List URL)
    (l : URL) (h : l ∈ admitted w opts start links) : l ∈ links :=
  (List.mem_filter.mp h).1

theorem depthInv_step (w : World) (opts : Options) (start : URL) (s : CrawlState)
    (h : DepthInv w opts start s) : DepthInv w opts start (crawlStep w opts start s) := by
  rcases crawlStep_cases w opts start s with ⟨-, he⟩ | ⟨item, rest, hq, -, he⟩ |
    ⟨item, rest, hq, -, -, he⟩ | ⟨item, rest, hq, -, -, pages, seen, extra, he, -, hx⟩
  · rw [he]; exact h
  · rw [he]
    intro i hi
    simp only at hi
    rcases hi with hi | hi
    · exact h i (Or.inl (hq ▸ List.mem_cons_of_mem _ hi))
    · exact h i (Or.inr hi)
  · rw [he]
    intro i hi
    simp only at hi
    rcases hi with hi | hi
    · exact h i (Or.inl (hq ▸ List.mem_cons_of_mem _ hi))
    · exact h i (Or.inr hi)
  · rw [he]
    have hitem := h item (Or.inl (hq ▸ List.mem_cons_self _ _))
    intro i hi
    simp only at hi
    rcases hi with hi | hi
    · rcases List.mem_append.mp hi with hi | hi
      · exact h i (Or.inl (hq ▸ List.mem_cons_of_mem _ hi))
      · rcases hx with hx | ⟨hlt, hx⟩
        · rw [hx] at hi
          cases hi
        · rw [hx] at hi
          obtain ⟨l, hl, rfl⟩ := List.mem_map.mp hi
          refine ⟨by simp only; omega, by simp only; omega, ?_⟩
          exact LinkChain.link item.u l item.depth _ hitem.2.2
            (mem_admitted w opts start _ l hl)
    · rcases List.mem_append.mp hi with hi | hi
      · exact h i (Or.inr hi)
      · rw [List.mem_singleton.mp hi]
        exact hitem

theorem seedOnly_step (w : World) (opts : Options) (start : URL) (s : CrawlState)
    (hD : opts.MaxDepth = 0)
    (h : ∀ i, i ∈ s.queue ∨ i ∈ s.fetched → i = ⟨start, 0⟩) :
    ∀ i, i ∈ (crawlStep w opts start s).queue ∨ i ∈ (crawlStep w opts start s).fetched →
      i = ⟨start, 0⟩ := by
  rcases crawlStep_cases w opts start s with ⟨-, he⟩ | ⟨item, rest, hq, -, he⟩ |
    ⟨item, rest, hq, -, -, he⟩ | ⟨item, rest, hq, -, -, pages, seen, extra, he, -, hx⟩
  · rw [he]; exact h
  · rw [he]
    intro i hi
    simp only at hi
    rcases hi with hi | hi
    · exact h i (Or.inl (hq ▸ List.mem_cons_of_mem _ hi))
    · exact h i (Or.inr hi)
  · rw [he]
    intro i hi
    simp only at hi
    rcases hi with hi | hi
    · exact h i (Or.inl (hq ▸ List.mem_cons_of_mem _ hi))
    · exact h i (Or.inr hi)
  · rw [he]
    have hitem := h item (Or.inl (hq ▸ List.mem_cons_self _ _))
    have hextra : extra = [] := by
      rcases hx with hx | ⟨hlt, -⟩
      · exact hx
      · rw [hitem, hD] at hlt
        exact absurd hlt (lt_irrefl _)
    intro i hi
    simp only [hextra, List.append_nil] at hi
    rcases hi with hi | hi
    · exact h i (Or.inl (hq ▸ List.mem_cons_of_mem _ hi))
    · rcases List.mem_append.mp hi with hi | hi
      · exact h i (Or.inr hi)
      · rw [List.mem_singleton.mp hi]
        exact hitem

/-- C9. Depth bound: in a run of `Crawl` with `MaxDepth >= 0`, at every point of the run
every item on the queue has a depth of at most `MaxDepth`, and every item for which
`FetchDocument` was called has a depth `d <= MaxDepth` and is linked from the seed by a
chain of `d` extracted links; with `MaxDepth = 0` the only item ever fetched or on the
queue is the seed, so no link is enqueued. -/
theorem crawl_depth_bound (w : World) (opts : Options) (start : URL)
    (seenHashes : List Nat) (hD : 0 ≤ opts.MaxDepth) (n : Nat) :
    (∀ i ∈ (crawlRun w opts start n (crawlInit start seenHashes)).queue,
      i.depth ≤ opts.MaxDepth) ∧
    (∀ i ∈ (crawlRun w opts start n (crawlInit start seenHashes)).fetched,
      i.depth ≤ opts.MaxDepth ∧ LinkChain w opts start i.u i.depth) ∧
    (opts.MaxDepth = 0 →
      (∀ i ∈ (crawlRun w opts start n (crawlInit start seenHashes)).fetched,
        i = ⟨start, 0⟩) ∧
      (∀ i ∈ (crawlRun w opts start n (crawlInit start seenHashes)).queue,
        i = ⟨start, 0⟩)) := by
  have hinit : DepthInv w opts start (crawlInit start seenHashes) := by
    intro i hi
    simp only [crawlInit, List.mem_singleton, List.not_mem_nil, or_false] at hi
    subst hi
    exact ⟨le_refl _, hD, LinkChain.seed⟩
  have h := crawlRun_invariant w opts start (DepthInv w opts start)
    (depthInv_step w opts start) n (crawlInit start seenHashes) hinit
  refine ⟨fun i hi => (h i (Or.inl hi)).2.1, fun i hi => (h i (Or.inr hi)).2, ?_⟩
  intro h0
  have hseed := crawlRun_invariant w opts start
    (fun s => ∀ i, i ∈ s.queue ∨ i ∈ s.fetched → i = ⟨start, 0⟩)
    (fun s hs => seedOnly_step w opts start s h0 hs) n (crawlInit start seenHashes)
    (by
      intro i hi
      simpa [crawlInit] using hi)
  exact ⟨fun i hi => hseed i (Or.inr hi), fun i hi => hseed i (Or.inl hi)⟩

/-- On the small site with `MaxDepth = 1`: after two iterations the queue holds `/b` at
depth 1 only, and every fetched item has depth at most 1. -/
theorem crawl_depth_bound_witness :
    (0 : Int) ≤ 1 ∧
    ((crawlRun demoWorld { MaxDepth := 1 } demoStart 2 (crawlInit demoStart [])).queue.map
      (fun i => (i.u.String, i.depth))) = [(lit "http://h:80/b", 1)] ∧
    (∀ i ∈ (crawlRun demoWorld { MaxDepth := 1 } demoStart 2 (crawlInit demoStart [])).fetched,
      i.depth ≤ 1 ∧ LinkChain demoWorld { MaxDepth := 1 } demoStart i.u i.depth) :=
  ⟨by decide, by decide!,
    (crawl_depth_bound demoWorld { MaxDepth := 1 } demoStart [] (by decide) 2).2.1⟩
theorem filter_unvisited_le (S V : List Str) (a : Str) :
    (S.filter (fun c => decide (c ∉ a :: V))).length ≤
      (S.filter (fun c => decide (c ∉ V))).length := by
  induction S with
  | nil => simp
  | cons x xs ih =>
    simp only [List.filter_cons]
    by_cases h1 : x ∉ a :: V
    · have h2 : x ∉ V := fun hx => h1 (List.mem_cons_of_mem _ hx)
      simp only [h1, h2, not_false_eq_true, decide_True, if_true, List.length_cons]
      omega
    · by_cases h2 : x ∉ V
      · simp only [h1, h2, not_false_eq_true, decide_True, decide_False, if_true,
          List.length_cons]
        simp only [Bool.false_eq_true, if_false]
        omega
      · simp only [h1, h2, decide_False, Bool.false_eq_true, if_false]
        exact ih

theorem filter_unvisited_lt (S V : List Str) (a : Str) (ha : a ∈ S) (hv : a ∉ V) :
    (S.filter (fun c => decide (c ∉ a :: V))).length <
      (S.filter (fun c => decide (c ∉ V))).length := by
  induction S with
  | nil => cases ha
  | cons x xs ih =>
    simp only [List.filter_cons]
    by_cases hx : x = a
    · subst hx
      have h1 : ¬ (x ∉ x :: V) := fun h => h (List.mem_cons_self _ _)
      simp only [h1, hv, not_false_eq_true, decide_True, decide_False, if_true,
        Bool.false_eq_true, if_false, List.length_cons]
      have := filter_unvisited_le xs V x
      omega
    · have hmem : a ∈ xs := by
        rcases List.mem_cons.mp ha with h | h
        · exact absurd h.symm hx
        · exact h
      have := ih hmem
      by_cases h2 : x ∉ V
      · have h1 : x ∉ a :: V := by
          intro h
          rcases List.mem_cons.mp h with h | h
          · exact hx h
          · exact h2 h
        simp only [h1, h2, not_false_eq_true, decide_True, if_true, List.length_cons]
        omega
      · have h1 : ¬ (x ∉ a :: V) := fun h => h2 (fun hx' => h (List.mem_cons_of_mem _ hx'))
        simp only [h1, h2, decide_False, Bool.false_eq_true, if_false]
        exact this

theorem crawl_terminates_from (w : World) (opts : Options) (start : URL) (S : List Str)
    (hP : opts.MaxPages = 0)
    (hfin : ∀ u d, LinkChain w opts start u d → canonicalURL u ∈ S) :
    ∀ (a b : Nat) (s : CrawlState), unvisited S s = a → s.queue.length = b →
      s.halted = false → (∀ i ∈ s.queue, ∃ d, LinkChain w opts start i.u d) →
      ∃ n, (crawlRun w opts start n s).queue = [] ∧
        (crawlRun w opts start n s).halted = false := by
  intro a
  induction a using Nat.strong_induction_on with
  | _ a iha =>
    intro b
    induction b using Nat.strong_induction_on with
    | _ b ihb =>
      intro s ha hb hh hq
      rcases crawlStep_cases w opts start s with ⟨hqe, -⟩ | ⟨item, rest, hqe, -, he⟩ |
        ⟨item, rest, -, -, hbud, -⟩ |
        ⟨item, rest, hqe, hv, -, pages, seen, extra, he, -, hx⟩
      · exact ⟨0, hqe, hh⟩
      · have hrun : running s = true := by simp [running, hh, hqe]
        obtain ⟨n, hn⟩ := ihb rest.length (by rw [← hb, hqe]; simp)
          (crawlStep w opts start s) (by rw [he]; exact ha) (by rw [he]) (by rw [he]; exact hh)
          (by
            rw [he]
            intro i hi
            exact hq i (hqe ▸ List.mem_cons_of_mem _ hi))
        exact ⟨n + 1, by rw [crawlRun_succ, if_pos hrun]; exact hn⟩
      · rw [hP] at hbud
        exact absurd hbud.1 (lt_irrefl _)
      · have hrun : running s = true := by simp [running, hh, hqe]
        obtain ⟨d, hd⟩ := hq item (hqe ▸ List.mem_cons_self _ _)
        have hlt : unvisited S (crawlStep w opts start s) < a := by
          rw [he, ← ha]
          exact filter_unvisited_lt S s.visited _ (hfin _ _ hd) hv
        obtain ⟨n, hn⟩ := iha _ hlt _ (crawlStep w opts start s) rfl rfl
          (by rw [he]; exact hh)
          (by
            rw [he]
            intro i hi
            simp only at hi
            rcases List.mem_append.mp hi with hi | hi
            · exact hq i (hqe ▸ List.mem_cons_of_mem _ hi)
            · rcases hx with hx | ⟨-, hx⟩
              · rw [hx] at hi
                cases hi
              · rw [hx] at hi
                obtain ⟨l, hl, rfl⟩ := List.mem_map.mp hi
                exact ⟨d + 1, LinkChain.link item.u l d _ hd
                  (mem_admitted w opts start _ l hl)⟩)
        exact ⟨n + 1, by rw [crawlRun_succ, if_pos hrun]; exact hn⟩

/-- C10. Termination: when the URLs linked from the seed by chains of extracted links have
finitely many canonical forms (all in the list `S`) and there is no page budget
(`MaxPages = 0`), then for every `MaxDepth` the loop of `Crawl` ends after finitely many
iterations, with an empty queue and without `break`. -/
theorem crawl_terminates (w : World) (opts : Options) (start : URL)
    (seenHashes : List Nat) (S : List Str) (hP : opts.MaxPages = 0)
    (hfin : ∀ u d, LinkChain w opts start u d → canonicalURL u ∈ S) :
    ∃ fuel s, Crawl w opts start seenHashes fuel = some s ∧ s.queue = [] ∧
      s.halted = false := by
  obtain ⟨n, hq, hh⟩ := crawl_terminates_from w opts start S hP hfin _ _
    (crawlInit start seenHashes) rfl rfl rfl
    (by
      intro i hi
      simp only [crawlInit, List.mem_singleton] at hi
      subst hi
      exact ⟨0, LinkChain.seed⟩)
  refine ⟨n, crawlRun w opts start n (crawlInit start seenHashes), ?_, hq, hh⟩
  unfold Crawl
  simp [running, hq]

theorem demo_linkChain (opts : Options) (u : URL) (d : Int)
    (h : LinkChain demoWorld opts demoStart u d) : canonicalURL u ∈ demoSite := by
  induction h with
  | seed => decide!
  | link parent child d earlier _ hc _ =>
    have hl : extractLinks demoWorld
        (demoWorld.FetchDocument earlier parent.String opts.UserAgent).hrefs parent =
        [{ Scheme := lit "http", Host := lit "h:80", Path := lit "/a" },
         { Scheme := lit "http", Host := lit "h:80", Path := lit "/b" }] := by
      rfl
    rw [hl] at hc
    rcases List.mem_cons.mp hc with hc | hc
    · subst hc
      decide!
    · rw [List.mem_singleton.mp hc]
      decide!

/-- The small site, where every page links back to `/a` and `/b`, has three canonical
URLs: the crawl without page budget ends. -/
theorem crawl_terminates_witness :
    ∃ fuel s, Crawl demoWorld { MaxDepth := 5 } demoStart [] fuel = some s ∧ s.queue = [] ∧
      s.halted = false :=
  crawl_terminates demoWorld { MaxDepth := 5 } demoStart [] demoSite rfl
    (demo_linkChain { MaxDepth := 5 })

/-! ### User-agent groups and the verdict -/

theorem isAllowed_congr (r r' : robotsTxt) (ua ua' path : Str)
    (h : ∀ x, x ∈ consulted r ua ↔ x ∈ consulted r' ua') :
    isAllowed r ua path = isAllowed r' ua' path := by
  have e : isAllowed r ua path = false ↔ isAllowed r' ua' path = false := by
    rw [isAllowed_eq_false_iff, isAllowed_eq_false_iff]
    constructor
    · rintro ⟨d, hd, hal, hm, hlong⟩
      exact ⟨d, (h d).mp hd, hal, hm, fun a ha => hlong a ((h a).mpr ha)⟩
    · rintro ⟨d, hd, hal, hm, hlong⟩
      exact ⟨d, (h d).mpr hd, hal, hm, fun a ha => hlong a ((h a).mp ha)⟩
  cases h1 : isAllowed r ua path <;> cases h2 : isAllowed r' ua' path <;> simp_all

theorem mem_declaredFor (uL : Str → Str) (lines : List Str) (g : Str) (rule : robotRule)
    (h : rule ∈ declaredFor uL lines g) : ∃ l ∈ lines, ruleOf uL l = some rule := by
  unfold declaredFor at h
  obtain ⟨i, hi, hr⟩ := List.mem_filterMap.mp h
  have hlt : i < lines.length := List.mem_range.mp hi
  by_cases hn : nearestAgent uL (List.take i lines) = some g
  · rw [if_pos hn] at hr
    refine ⟨lines.getD i [], ?_, hr⟩
    rw [List.getD_eq_getElem _ _ hlt]
    exact List.getElem_mem hlt
  · rw [if_neg hn] at hr
    cases hr

theorem parsed_group_subset_star (uL : Str → Str) (text g : Str) (rule : robotRule)
    (h : rule ∈ getRules (parseRobots uL text freshRobots) g) :
    rule ∈ getRules (parseRobots uL text freshRobots) star := by
  by_cases hg : g = star
  · rw [← hg]
    exact h
  · have hinv := parseInv_foldl uL (SplitByte 10 text) [] ⟨[], freshRobots⟩ (parseInv_init uL)
    rw [List.nil_append] at hinv
    obtain ⟨-, hgrp, -, hstar⟩ := hinv
    have h' : rule ∈ declaredFor uL (SplitByte 10 text) g := by
      rw [← hgrp g hg]
      exact h
    exact (hstar rule).mpr (mem_declaredFor uL _ g rule h')

/-- C15. User-agent groups never change the verdict: for the policy `parseRobots` builds
from any robots.txt text on the fresh policy `{"*": []}`, every user-agent string and
every path get the verdict of the group `*`, since every rule of every group is also in
the group `*` and the resolution does not depend on the order of the rules. -/
theorem isAllowed_ignores_user_agent (unicodeLower : Str → Str) (text ua path : Str) :
    isAllowed (parseRobots unicodeLower text freshRobots) ua path =
      isAllowed (parseRobots unicodeLower text freshRobots) star path := by
  apply isAllowed_congr
  intro x
  unfold consulted
  simp only [List.mem_append]
  constructor
  · rintro (h | h)
    · exact Or.inl (parsed_group_subset_star unicodeLower text ua x h)
    · exact Or.inl h
  · rintro (h | h)
    · exact Or.inr h
    · exact Or.inr h

/-- In the text with the groups `googlebot` and `bingbot`, `Disallow: /a` is declared for
`googlebot` only, and `/a` is blocked for `bingbot`, for `*` and for an unnamed crawler. -/
theorem isAllowed_twoGroups :
    isAllowed (parseRobots (fun s => s) twoGroupsText freshRobots) (lit "googlebot")
      (lit "/a") = false ∧
    isAllowed (parseRobots (fun s => s) twoGroupsText freshRobots) (lit "bingbot")
      (lit "/a") = false ∧
    isAllowed (parseRobots (fun s => s) twoGroupsText freshRobots) star (lit "/a") = false ∧
    isAllowed (parseRobots (fun s => s) twoGroupsText freshRobots) (lit "other")
      (lit "/a") = false := by
  decide!

/-! ### Saving, counting and content dedup in the loop of `Crawl` -/

/-- The iteration that fetches a page successfully as HTML: the item is marked visited and
logged, the counter moves when the save succeeds, the hash of the body is recorded, and
the admitted links are appended unless the content was seen or the depth is reached. -/
theorem crawlStep_page (w : World) (opts : Options) (start : URL) (s : CrawlState)
    (item : qi) (r : FetchResult) (h : pageAt w opts s = some (item, r)) :
    crawlStep w opts start s =
      { queue := s.queue.tail ++
          (if (seenContent s.seenHashes r.body).1 = true ∨ item.depth ≥ opts.MaxDepth then []
           else (admitted w opts start (extractLinks w r.hrefs item.u)).map
             (fun link => ⟨link, item.depth + 1⟩)),
        visited := canonicalURL item.u :: s.visited,
        pages := if w.saveHTML (s.fetched.map (fun i => i.u.String)) opts.OutDir item.u
          r.body = true then s.pages + 1 else s.pages,
        seenHashes := (seenContent s.seenHashes r.body).2,
        halted := s.halted,
        fetched := s.fetched ++ [item] } := by
  unfold pageAt at h
  by_cases hrun : running s = true
  · rw [if_pos hrun] at h
    rcases hq : s.queue with _ | ⟨it, rest⟩
    · simp [hq] at h
    · simp only [hq] at h
      by_cases hv : canonicalURL it.u ∈ s.visited
      · simp [hv] at h
      · rw [if_neg hv] at h
        by_cases hb : opts.MaxPages > 0 ∧ s.pages ≥ opts.MaxPages
        · simp [hb] at h
        · rw [if_neg hb] at h
          split_ifs at h with hf
          simp only [Option.some.injEq, Prod.mk.injEq] at h
          obtain ⟨hit, hr⟩ := h
          subst hit
          unfold crawlStep
          simp only [hq, hv, hb, if_false, hr, hf, List.tail_cons]
          split_ifs <;> first | (simp_all; done) | (simp_all; exfalso; omega)
  · rw [if_neg hrun] at h
    cases h

theorem pageAt_saveHTML (w : World) (opts : Options) (s : CrawlState)
    (sv : List Str → Str → URL → List Nat → Bool) :
    pageAt { w with saveHTML := sv } opts s = pageAt w opts s := rfl

theorem seenContent_fst (S b : List Nat) :
    (seenContent S b).1 = true ↔ contentHash b ∈ S := by
  unfold seenContent
  by_cases h : contentHash b ∈ S <;> simp [h]

theorem seenContent_snd (S b : List Nat) :
    contentHash b ∈ (seenContent S b).2 ∧ ∀ x ∈ S, x ∈ (seenContent S b).2 := by
  unfold seenContent
  by_cases h : contentHash b ∈ S <;> simp [h]
  intro x hx
  exact Or.inr hx

/-- C12 (as amended). A failed save does not block link discovery: in the iteration that
fetches a page successfully as HTML, the queue with the page's links, the visited set, the
recorded content hashes and the dispatch log come out the same whatever `saveHTML`
returns; the page counter is incremented when the save succeeds and stays when it
fails. -/
theorem crawl_save_failure (w : World) (opts : Options) (start : URL) (s : CrawlState)
    (sv : List Str → Str → URL → List Nat → Bool) (item : qi) (r : FetchResult)
    (h : pageAt w opts s = some (item, r)) :
    (crawlStep { w with saveHTML := sv } opts start s).queue =
      (crawlStep w opts start s).queue ∧
    (crawlStep { w with saveHTML := sv } opts start s).visited =
      (crawlStep w opts start s).visited ∧
    (crawlStep { w with saveHTML := sv } opts start s).seenHashes =
      (crawlStep w opts start s).seenHashes ∧
    (crawlStep { w with saveHTML := sv } opts start s).fetched =
      (crawlStep w opts start s).fetched ∧
    (crawlStep w opts start s).pages =
      (if w.saveHTML (s.fetched.map (fun i => i.u.String)) opts.OutDir item.u r.body = true
       then s.pages + 1 else s.pages) := by
  have h' : pageAt { w with saveHTML := sv } opts s = some (item, r) := by
    rw [pageAt_saveHTML]
    exact h
  rw [crawlStep_page w opts start s item r h,
    crawlStep_page { w with saveHTML := sv } opts start s item r h']
  exact ⟨rfl, rfl, rfl, rfl, rfl⟩

/-- On the small site the seed is fetched as HTML; with a disk that refuses the write the
counter stays at 0 and the links are enqueued all the same. -/
theorem crawl_save_failure_witness :
    (crawlStep demoWorldNoSave { MaxDepth := 2 } demoStart (crawlInit demoStart [])).queue =
      (crawlStep demoWorld { MaxDepth := 2 } demoStart (crawlInit demoStart [])).queue ∧
    (crawlStep demoWorld { MaxDepth := 2 } demoStart (crawlInit demoStart [])).queue.length
      = 2 ∧
    (crawlStep demoWorld { MaxDepth := 2 } demoStart (crawlInit demoStart [])).pages = 1 :=
  have h := crawl_save_failure demoWorld { MaxDepth := 2 } demoStart (crawlInit demoStart [])
    (fun _ _ _ _ => false) ⟨demoStart, 0⟩
    ⟨false, [lit "/a", lit "/b#top", []], lit "http://h", lit "Text/HTML; charset=utf-8"⟩
    (by decide!)
  ⟨h.1, by decide!, h.2.2.2.2⟩

/-- The claim of C12 fails on the counter: on the small site with a disk that refuses
every write, the seed is fetched successfully as HTML and the counter is not incremented,
while with a working disk it is. -/
theorem crawl_save_failure_counterexample :
    (pageAt demoWorldNoSave { MaxDepth := 2 } (crawlInit demoStart [])).isSome = true ∧
    (crawlStep demoWorldNoSave { MaxDepth := 2 } demoStart (crawlInit demoStart [])).pages
      = 0 ∧
    (crawlStep demoWorld { MaxDepth := 2 } demoStart (crawlInit demoStart [])).pages = 1 ∧
    (Crawl demoWorldNoSave { MaxDepth := 2 } demoStart [] 7).map
      (fun s => (s.fetched.length, s.pages)) = some (3, 0) := by
  decide!

theorem seenHashes_step (w : World) (opts : Options) (start : URL) (s : CrawlState) :
    ∀ x ∈ s.seenHashes, x ∈ (crawlStep w opts start s).seenHashes := by
  intro x hx
  unfold crawlStep
  rcases hq : s.queue with _ | ⟨item, rest⟩
  · simpa using hx
  · simp only
    split_ifs <;> first | exact hx | exact (seenContent_snd _ _).2 x hx

theorem seenHashes_run (w : World) (opts : Options) (start : URL) (n : Nat)
    (s : CrawlState) : ∀ x ∈ s.seenHashes, x ∈ (crawlRun w opts start n s).seenHashes := by
  induction n generalizing s with
  | zero => exact fun x hx => hx
  | succ n ih =>
    intro x hx
    rw [crawlRun_succ]
    split_ifs
    · exact ih _ x (seenHashes_step w opts start s x hx)
    · exact hx

/-- The hash of every body fetched successfully as HTML so far is in `seenHashes`. -/
theorem htmlBodies_seen (w : World) (opts : Options) (start : URL) (n : Nat)
    (s : CrawlState) :
    ∀ b ∈ htmlBodies w opts start n s,
      contentHash b ∈ (crawlRun w opts start n s).seenHashes := by
  induction n generalizing s with
  | zero =>
    intro b hb
    cases hb
  | succ n ih =>
    intro b hb
    unfold htmlBodies at hb
    rw [crawlRun_succ]
    by_cases hrun : running s = true
    · rw [if_pos hrun] at hb
      rw [if_pos hrun]
      rcases List.mem_append.mp hb with hb | hb
      · rcases hp : pageAt w opts s with _ | ⟨item, r⟩
        · simp [hp] at hb
        · simp only [hp, List.mem_singleton] at hb
          subst hb
          apply seenHashes_run
          rw [crawlStep_page w opts start s item r hp]
          exact (seenContent_snd _ _).1
      · exact ih _ b hb
    · rw [if_neg hrun] at hb
      cases hb

theorem contentHash_lt (b : List Nat) : contentHash b < 2 ^ 64 := by
  unfold contentHash
  have : ∀ (l : List Nat) (h0 : Nat), h0 < 2 ^ 64 →
      l.foldl (fun h c => ((h ^^^ c) * 1099511628211) % 2 ^ 64) h0 < 2 ^ 64 := by
    intro l
    induction l with
    | nil => exact fun h0 hh => hh
    | cons c cs ih =>
      intro h0 _
      exact ih _ (Nat.mod_lt _ (by norm_num))
  exact this b _ (by norm_num)

/-- Two different byte sequences with the same hash exist: there are more sequences of nine
bytes than 64-bit values. -/
theorem contentHash_collision :
    ∃ b b' : List Nat, b ≠ b' ∧ (∀ c ∈ b, c < 256) ∧ (∀ c ∈ b', c < 256) ∧
      contentHash b = contentHash b' := by
  let f : (Fin 9 → Fin 256) → Fin (2 ^ 64) :=
    fun v => ⟨contentHash (List.ofFn (fun i => (v i).val)), contentHash_lt _⟩
  have hcard : Fintype.card (Fin (2 ^ 64)) < Fintype.card (Fin 9 → Fin 256) := by
    simp only [Fintype.card_fin, Fintype.card_pi, Finset.prod_const, Finset.card_univ]
    norm_num
  obtain ⟨v, v', hne, heq⟩ := Fintype.exists_ne_map_eq_of_card_lt f hcard
  refine ⟨List.ofFn (fun i => (v i).val), List.ofFn (fun i => (v' i).val), ?_, ?_, ?_, ?_⟩
  · intro h
    apply hne
    funext i
    exact Fin.ext (congrFun (List.ofFn_injective h) i)
  · intro c hc
    obtain ⟨i, rfl⟩ := (List.mem_ofFn _ _).mp hc
    exact (v i).isLt
  · intro c hc
    obtain ⟨i, rfl⟩ := (List.mem_ofFn _ _).mp hc
    exact (v' i).isLt
  · exact congrArg Fin.val heq

/-- C11 (as amended). `seenContent` answers true exactly when the hash of the bytes is
already in `seenHashes`, so it answers true for the second and every later occurrence of a
byte sequence.  In a run of `Crawl`, a page fetched successfully as HTML whose bytes are
identical to those of a page fetched successfully as HTML earlier in the run gets the
answer true: it is still passed to `saveHTML` and counted when the save succeeds, it is
logged as dispatched, and none of its links is enqueued (the queue only loses its head). -/
theorem crawl_content_dedup (w : World) (opts : Options) (start : URL)
    (seenHashes : List Nat) (n : Nat) (item : qi) (r : FetchResult)
    (hpage : pageAt w opts (crawlRun w opts start n (crawlInit start seenHashes)) =
      some (item, r))
    (hdup : r.body ∈ htmlBodies w opts start n (crawlInit start seenHashes)) :
    (∀ S b, ((seenContent S b).1 = true ↔ contentHash b ∈ S) ∧
      (seenContent (seenContent S b).2 b).1 = true) ∧
    (seenContent (crawlRun w opts start n (crawlInit start seenHashes)).seenHashes r.body).1
      = true ∧
    (crawlStep w opts start (crawlRun w opts start n (crawlInit start seenHashes))).queue =
      (crawlRun w opts start n (crawlInit start seenHashes)).queue.tail ∧
    (crawlStep w opts start (crawlRun w opts start n (crawlInit start seenHashes))).pages =
      (if w.saveHTML
          ((crawlRun w opts start n (crawlInit start seenHashes)).fetched.map
            (fun i => i.u.String)) opts.OutDir item.u r.body = true
       then (crawlRun w opts start n (crawlInit start seenHashes)).pages + 1
       else (crawlRun w opts start n (crawlInit start seenHashes)).pages) ∧
    (crawlStep w opts start (crawlRun w opts start n (crawlInit start seenHashes))).fetched =
      (crawlRun w opts start n (crawlInit start seenHashes)).fetched ++ [item] := by
  have hseen : (seenContent (crawlRun w opts start n (crawlInit start seenHashes)).seenHashes
      r.body).1 = true :=
    (seenContent_fst _ _).mpr (htmlBodies_seen w opts start n _ r.body hdup)
  refine ⟨fun S b => ⟨seenContent_fst S b,
    (seenContent_fst _ _).mpr (seenContent_snd S b).1⟩, hseen, ?_, ?_, ?_⟩
  · rw [crawlStep_page w opts start _ item r hpage]
    simp [hseen]
  · rw [crawlStep_page w opts start _ item r hpage]
  · rw [crawlStep_page w opts start _ item r hpage]

/-- On the mirror site the second page fetched, `/a`, has the bytes of the seed: it is
saved and counted (2 pages) and the queue only loses its head, so `/b` alone remains. -/
theorem crawl_content_dedup_witness :
    (crawlRun mirrorWorld { MaxDepth := 2 } demoStart 1 (crawlInit demoStart [])).queue.map
      (fun i => i.u.String) = [lit "http://h:80/a", lit "http://h:80/b"] ∧
    (crawlStep mirrorWorld { MaxDepth := 2 } demoStart
      (crawlRun mirrorWorld { MaxDepth := 2 } demoStart 1 (crawlInit demoStart []))).queue =
      (crawlRun mirrorWorld { MaxDepth := 2 } demoStart 1 (crawlInit demoStart [])).queue.tail ∧
    (crawlStep mirrorWorld { MaxDepth := 2 } demoStart
      (crawlRun mirrorWorld { MaxDepth := 2 } demoStart 1 (crawlInit demoStart []))).pages
      = 2 :=
  have h := crawl_content_dedup mirrorWorld { MaxDepth := 2 } demoStart [] 1
    ⟨{ Scheme := lit "http", Host := lit "h:80", Path := lit "/a" }, 1⟩
    ⟨false, [lit "/a", lit "/b#top", []], lit "<html>", lit "text/html"⟩
    (by decide!) (by decide!)
  ⟨by decide!, h.2.2.1, by decide!⟩

/-- The claim of C11 fails on "false for the first occurrence".  The global `seenHashes`
outlives a run: after one crawl of the small site, a second crawl of the same site gets
the answer true for the bytes of its first page, enqueues no link and ends after the seed.
And within one run, a byte sequence that was never fetched gets the answer true when its
hash collides with that of an earlier one.  It fails on "counted" as well when the save
fails: on the mirror site with a disk that refuses every write, the duplicate page `/a`
leaves the counter at 0. -/
theorem seenContent_first_occurrence_counterexample :
    (htmlBodies demoWorld { MaxDepth := 2 } demoStart 0
        (crawlInit demoStart
          (((Crawl demoWorld { MaxDepth := 2 } demoStart [] 7).map
            (fun s => s.seenHashes)).getD [])) = [] ∧
      (seenContent
        (((Crawl demoWorld { MaxDepth := 2 } demoStart [] 7).map
          (fun s => s.seenHashes)).getD []) (lit "http://h")).1 = true ∧
      (Crawl demoWorld { MaxDepth := 2 } demoStart
        (((Crawl demoWorld { MaxDepth := 2 } demoStart [] 7).map
          (fun s => s.seenHashes)).getD []) 1).map
        (fun s => (s.fetched.map (fun i => i.u.String), s.queue, s.pages)) =
          some ([lit "http://h"], [], 1)) ∧
    (∃ b b' : List Nat, b ≠ b' ∧ (∀ c ∈ b, c < 256) ∧ (∀ c ∈ b', c < 256) ∧
      (seenContent [] b).1 = false ∧ (seenContent (seenContent [] b).2 b').1 = true) ∧
    (crawlStep mirrorWorldNoSave { MaxDepth := 2 } demoStart
      (crawlRun mirrorWorldNoSave { MaxDepth := 2 } demoStart 1
        (crawlInit demoStart []))).pages = 0 := by
  refine ⟨?_, ?_, ?_⟩
  · decide!
  swap
  · decide!
  · obtain ⟨b, b', hne, hb, hb', heq⟩ := contentHash_collision
    refine ⟨b, b', hne, hb, hb', ?_, ?_⟩
    · simp [seenContent]
    · rw [seenContent_fst, ← heq]
      exact (seenContent_snd [] b).1

/-! ### Per-host rate limit -/

theorem throttle_other (D : Int) (hl : HostLast) (host g : Str) (now after : Int)
    (hg : g ≠ host) : (throttle D hl host now after).1 g = hl g := by
  unfold throttle
  split_ifs
  · rfl
  · rcases hl host with _ | last
    · simp [Function.update, hg]
    · simp only
      split_ifs <;> simp [Function.update, hg]

theorem throttle_same (D : Int) (hD : 0 < D) (hl : HostLast) (c : ThrottleCall)
    (hs : SleepAdvances D hl c) :
    ∃ t', (throttle D hl c.host c.now c.after).1 c.host = some t' ∧
      ∀ t, hl c.host = some t → t + D ≤ t' := by
  unfold SleepAdvances at hs
  unfold throttle at hs ⊢
  have hD' : ¬ D ≤ 0 := not_le.mpr hD
  rw [if_neg hD'] at hs ⊢
  rcases hh : hl c.host with _ | last
  · exact ⟨c.now, by simp, fun t ht => by cases ht⟩
  · simp only [hh] at hs ⊢
    by_cases hge : c.now - last ≥ D
    · rw [if_pos hge]
      refine ⟨c.now, by simp, ?_⟩
      intro t ht
      cases ht
      omega
    · rw [if_neg hge] at hs ⊢
      refine ⟨c.after, by simp, ?_⟩
      intro t ht
      cases ht
      simp only at hs
      omega

theorem throttle_sets (D : Int) (hD : 0 < D) (hl : HostLast) (host : Str) (now after : Int) :
    ∃ t, (throttle D hl host now after).1 host = some t := by
  unfold throttle
  rw [if_neg (not_le.mpr hD)]
  rcases hl host with _ | last
  · exact ⟨now, by simp⟩
  · simp only
    split_ifs
    · exact ⟨now, by simp⟩
    · exact ⟨after, by simp⟩

theorem throttleAll_append (D : Int) (hl : HostLast) (xs ys : List ThrottleCall) :
    throttleAll D hl (xs ++ ys) = throttleAll D (throttleAll D hl xs) ys := by
  unfold throttleAll
  rw [List.foldl_append]

theorem throttleAll_other (D : Int) (hl : HostLast) (calls : List ThrottleCall) (g : Str)
    (h : ∀ m ∈ calls, m.host ≠ g) : throttleAll D hl calls g = hl g := by
  induction calls generalizing hl with
  | nil => rfl
  | cons m ms ih =>
    have hm : g ≠ m.host := fun e => h m (List.mem_cons_self _ _) e.symm
    have := ih (throttle D hl m.host m.now m.after).1
      (fun x hx => h x (List.mem_cons_of_mem _ hx))
    simp only [throttleAll, List.foldl_cons] at this ⊢
    rw [this]
    exact throttle_other D hl m.host g m.now m.after hm

/-- C13. Per-host rate limit, with a delay `D > 0` and a clock on which sleeping for `w`
advances time by at least `w`: in every sequence of calls of `throttle`, the times recorded
in `hostLast` by two consecutive calls on the same host (calls on other hosts may lie
between them) are at least `D` apart.  A call on one host leaves the entry of every other
host unchanged and its outcome does not depend on the entries of other hosts.  With a
delay of zero or less `throttle` returns without sleeping and leaves `hostLast` as it
is. -/
theorem throttle_rate_limit (D : Int) (hostLast : HostLast)
    (pre mid : List ThrottleCall) (c c' : ThrottleCall) (hD : 0 < D)
    (hhost : c'.host = c.host) (hmid : ∀ m ∈ mid, m.host ≠ c.host)
    (hsleep : SleepAdvances D (throttleAll D hostLast (pre ++ [c] ++ mid)) c') :
    (∃ t t', throttleAll D hostLast (pre ++ [c]) c.host = some t ∧
      throttleAll D hostLast (pre ++ [c] ++ mid ++ [c']) c.host = some t' ∧ t + D ≤ t') ∧
    (∀ (hl : HostLast) (host g : Str) (now after : Int), g ≠ host →
      (throttle D hl host now after).1 g = hl g) ∧
    (∀ (hl hl' : HostLast) (host : Str) (now after : Int), hl host = hl' host →
      (throttle D hl host now after).1 host = (throttle D hl' host now after).1 host ∧
      (throttle D hl host now after).2 = (throttle D hl' host now after).2) ∧
    (∀ (D0 : Int) (hl : HostLast) (host : Str) (now after : Int), D0 ≤ 0 →
      throttle D0 hl host now after = (hl, 0)) := by
  refine ⟨?_, fun hl host g now after hg => throttle_other D hl host g now after hg, ?_, ?_⟩
  · obtain ⟨t, ht⟩ := throttle_sets D hD (throttleAll D hostLast pre) c.host c.now c.after
    obtain ⟨t', ht', hle⟩ := throttle_same D hD _ c' hsleep
    have e1 : throttleAll D hostLast (pre ++ [c]) c.host = some t := by
      rw [throttleAll_append]
      exact ht
    have e2 : throttleAll D hostLast (pre ++ [c] ++ mid) c.host = some t := by
      rw [throttleAll_append, throttleAll_other D _ mid c.host hmid]
      exact e1
    refine ⟨t, t', e1, ?_, hle t (hhost ▸ e2)⟩
    rw [throttleAll_append]
    show (throttle D _ c'.host c'.now c'.after).1 c.host = some t'
    rw [← hhost]
    exact ht'
  · intro hl hl' host now after h
    unfold throttle
    split_ifs
    · exact ⟨h, rfl⟩
    · rw [← h]
      rcases hl host with _ | last
      · simp
      · simp only
        split_ifs <;> simp
  · intro D0 hl host now after h0
    unfold throttle
    rw [if_pos h0]

/-- With a delay of 1000: host `a` is dispatched at 0; a call on host `b` at 100 does not
wait; the next call on `a` at 300 sleeps 700 and is recorded at 1000. -/
theorem throttle_rate_limit_witness :
    throttleAll 1000 (fun _ => none) [⟨lit "a", 0, 0⟩] (lit "a") = some 0 ∧
    throttleAll 1000 (fun _ => none)
      [⟨lit "a", 0, 0⟩, ⟨lit "b", 100, 100⟩, ⟨lit "a", 300, 1000⟩] (lit "a") = some 1000 ∧
    (throttle 1000 (throttleAll 1000 (fun _ => none) [⟨lit "a", 0, 0⟩, ⟨lit "b", 100, 100⟩])
      (lit "a") 300 1000).2 = 700 ∧
    ∃ t t', throttleAll 1000 (fun _ => none) ([] ++ [⟨lit "a", 0, 0⟩]) (lit "a") = some t ∧
      throttleAll 1000 (fun _ => none)
        ([] ++ [⟨lit "a", 0, 0⟩] ++ [⟨lit "b", 100, 100⟩] ++ [⟨lit "a", 300, 1000⟩])
        (lit "a") = some t' ∧ t + 1000 ≤ t' :=
  ⟨by decide!, by decide!, by decide!,
    (throttle_rate_limit 1000 (fun _ => none) [] [⟨lit "b", 100, 100⟩] ⟨lit "a", 0, 0⟩
      ⟨lit "a", 300, 1000⟩ (by decide) rfl (by decide!) (by decide!)).1⟩

/-! ### Closing the frontier -/

/-- With a page budget that is not reached, the closing goroutine never closes the queue,
whatever the queue and the workers look like. -/
theorem closer_below_budget (opts : Options) (rd : Nat → CloserReadings)
    (hP : 0 < opts.MaxPages) (hlt : ∀ k, (rd k).pagesLen < opts.MaxPages) :
    ∀ fuel k, closer opts rd fuel k = none := by
  intro fuel
  induction fuel with
  | zero => exact fun _ => rfl
  | succ fuel ih =>
    intro k
    have hk : closerRound opts (rd k) = false := by
      unfold closerRound
      rw [if_pos hP, if_neg (not_le.mpr (hlt k))]
    unfold closer
    rw [hk]
    exact ih (k + 1)

/-- Without page budget, a round closes the queue exactly when the timer has fired, or
the queue is empty at both readings and no worker holds its token. -/
theorem closerRound_unlimited (opts : Options) (rd : CloserReadings)
    (hP : opts.MaxPages ≤ 0) :
    closerRound opts rd = true ↔
      (rd.timeout = true ∨
        (rd.queueLen = 0 ∧ rd.activeWorkersLen = 0 ∧ rd.queueLenAfter = 0)) := by
  unfold closerRound
  rw [if_neg (not_lt.mpr hP)]
  by_cases ht : rd.timeout = true
  · simp [ht]
  · by_cases hq : rd.queueLen = 0 ∧ rd.activeWorkersLen = 0
    · by_cases ha : rd.queueLenAfter = 0
      · simp [ht, hq, ha]
      · simp [ht, hq, ha]
    · rw [if_neg ht, if_neg hq]
      constructor
      · intro h
        cases h
      · rintro (h | ⟨h1, h2, -⟩)
        · exact absurd h ht
        · exact absurd ⟨h1, h2⟩ hq

/-- While the timer has not fired and a worker holds its token, no round closes the queue
of a crawl without page budget. -/
theorem closer_live_workers (opts : Options) (rd : Nat → CloserReadings)
    (hP : opts.MaxPages ≤ 0)
    (h : ∀ k, (rd k).timeout = false ∧ 0 < (rd k).activeWorkersLen) :
    ∀ fuel k, closer opts rd fuel k = none := by
  intro fuel
  induction fuel with
  | zero => exact fun _ => rfl
  | succ fuel ih =>
    intro k
    have hk : closerRound opts (rd k) = false := by
      cases hc : closerRound opts (rd k) with
      | false => rfl
      | true =>
        rcases (closerRound_unlimited opts (rd k) hP).mp hc with ht | ⟨-, ha, -⟩
        · rw [(h k).1] at ht
          cases ht
        · have := (h k).2
          omega
    unfold closer
    rw [hk]
    exact ih (k + 1)

/-- C14. The closing goroutine of `CrawlConcurrent` does not close the queue at
quiescence.  With `MaxPages = 10` and two workers on a site of three pages, once the three
pages are saved every round reads `len(pagesCh) = 3`, an empty queue and two waiting
workers: no round closes the queue, however many rounds pass, so the run never ends.
Without page budget the round in which the 2 s timer has fired closes the queue although
five jobs are queued, and before that an empty queue with two waiting workers is not
closed. -/
theorem closer_not_quiescence :
    (∀ fuel, closer { MaxPages := 10, Concurrency := 2 }
      (fun _ => ⟨3, false, 0, 2, 0⟩) fuel 0 = none) ∧
    closerRound { MaxPages := 10, Concurrency := 2 } ⟨10, false, 5, 2, 5⟩ = true ∧
    closerRound { MaxPages := 0, Concurrency := 2 } ⟨0, true, 5, 2, 5⟩ = true ∧
    (∀ fuel, closer { MaxPages := 0, Concurrency := 2 }
      (fun _ => ⟨3, false, 0, 2, 0⟩) fuel 0 = none) := by
  refine ⟨?_, by decide, by decide, ?_⟩
  · intro fuel
    exact closer_below_budget _ _ (by decide) (fun _ => by decide) fuel 0
  · intro fuel
    exact closer_live_workers _ _ (by decide) (fun _ => ⟨rfl, by decide⟩) fuel 0

end Scrawler
